import Mathlib

/-!
# Verification of the CRClicker annotation session engine

Shallow embedding of the annotation session engine of the CRClicker /
TrafficClicker repository (renderer `src/unnamed/part_002` and
`src/TrafficClicker3_11_25/js/modules/recap.js`) and proofs of the spec
claims about it.

Modelling conventions:
* JS numbers that carry times and coordinates are modelled as `ℚ`
  (the code only adds, subtracts, compares and floors them); `NaN` inputs,
  which the code filters out with `isNaN`, are not representable.
* A JS object used as a string-keyed map (the per-entry step values, the
  `activeDots` map, the `deletedEntryIds` set) is modelled as a function
  out of `String`; `delete obj[k]` sets the key to `none`.  The fixed base
  fields of an entry object (`entryId`, `playback_time_seconds`,
  `ocr_timestamp`, `click_x`, `click_y`) are modelled as separate record
  fields, so configs whose `step_id`s collide with those five reserved
  keys are outside the model.
* JS string truthiness (`if (x)`) is modelled explicitly: a string is
  truthy iff it is nonempty, a number is truthy iff it is nonzero.
* `setTimeout` bookkeeping (`state.dotTimeouts`) and all pure rendering
  (canvas drawing, toasts, progress bars, log panel) have no engine state
  and are omitted; every mutation of the session state in the embedded
  functions is modelled.
* Single-threaded event handlers run to completion, so a handler together
  with the `seeked` callback it installs is modelled as one function.
-/

namespace CRClicker

/-- Step values recorded on the in-progress entry object, keyed by
`step_id` (`state.currentEntry[stepId]`). -/
def Vals : Type := String → Option String

/-- The empty value map (a freshly created entry shell has no step values). -/
def emptyVals : Vals := fun _ => none

/-- `obj[k] = v` on a string-keyed JS object. -/
def setVal (m : Vals) (k v : String) : Vals :=
  fun x => if x = k then some v else m x

/-- `delete obj[k]` on a string-keyed JS object. -/
def delVal (m : Vals) (k : String) : Vals :=
  fun x => if x = k then none else m x

/-- JS truthiness of a possibly-missing string value:
`undefined` and `""` are falsy, every other string is truthy. -/
def isTruthy : Option String → Bool
  | none => false
  | some s => s ≠ ""

/-- A step condition, `{ step_id, operator?, value?, values? }`
(config guide and `evaluateStepCondition`). -/
structure Cond where
  ref : String
  operator : Option String
  value : Option String
  values : Option (List String)
deriving Repr, DecidableEq

/-- A questionnaire step: `{ step_id, condition? }` (the prompt text,
choice list and input type do not enter the navigation logic). -/
structure Step where
  step_id : String
  condition : Option Cond
deriving Repr, DecidableEq

/-- JS loose equality `previousValue == condition.value` where the right
side may be `undefined` (a string is never loosely equal to `undefined`). -/
def looseEq (prev : String) (v : Option String) : Bool :=
  match v with
  | some s => prev = s
  | none => false

/-- The `switch (operator)` of `evaluateStepCondition`, applied to the
recorded value of the referenced step. -/
def applyOperator (cond : Cond) (previousValue : String) : Bool :=
  let op := cond.operator.getD "=="
  if op = "==" ∨ op = "=" then looseEq previousValue cond.value
  else if op = "!=" then ! looseEq previousValue cond.value
  else if op = "in" then
    match cond.values with
    | some vs => previousValue ∈ vs
    | none => false
  else if op = "not in" then
    match cond.values with
    | some vs => previousValue ∉ vs
    | none => true
  else looseEq previousValue cond.value

/-- `evaluateStepCondition(step, stepIndex, currentEntry)`
(renderer, lines 2742-2790).  `currentEntry = none` models a `null`
current entry; the step-value fields of a non-null entry are the `Vals`
map. -/
def evaluateStepCondition (step : Step) (stepIndex : Nat)
    (currentEntry : Option Vals) : Bool :=
  match step.condition with
  | none => true
  | some cond =>
    match currentEntry with
    | none => stepIndex = 0
    | some vals =>
      -- `if (step.condition.step_id && currentEntry[...] !== undefined)`
      if cond.ref ≠ "" ∧ (vals cond.ref).isSome then
        applyOperator cond ((vals cond.ref).getD "")
      else false

/-- Condition check of the step stored at index `i`, out-of-range indices
never qualifying (callers of the scans stay in range). -/
def evalAt (steps : List Step) (currentEntry : Option Vals) (i : Nat) : Bool :=
  match steps[i]? with
  | some st => evaluateStepCondition st i currentEntry
  | none => false

/-- Forward scan loop of `findNextValidStepIndex` from index `i`. -/
def findNextFrom (steps : List Step) (currentEntry : Option Vals) (i : Nat) : Int :=
  if h : i < steps.length then
    if evaluateStepCondition (steps.get ⟨i, h⟩) i currentEntry then (i : Int)
    else findNextFrom steps currentEntry (i + 1)
  else -1
termination_by steps.length - i

/-- `findNextValidStepIndex(startIndex)` (renderer, lines 2716-2726):
first index `≥ startIndex` whose step passes its condition, `-1` if none. -/
def findNextValidStepIndex (steps : List Step) (currentEntry : Option Vals)
    (startIndex : Nat) : Int :=
  findNextFrom steps currentEntry startIndex

/-- Backward scan loop of `findPreviousValidStepIndex`, testing index `i`
then `i - 1`, down to `0`. -/
def findPrevFrom (steps : List Step) (currentEntry : Option Vals) : Nat → Int
  | 0 => if evalAt steps currentEntry 0 then (0 : Int) else -1
  | i + 1 =>
    if evalAt steps currentEntry (i + 1) then ((i + 1 : Nat) : Int)
    else findPrevFrom steps currentEntry i

/-- `findPreviousValidStepIndex(currentIndex)` (renderer, lines 2728-2739):
first valid index strictly below `currentIndex`, `-1` if none. -/
def findPreviousValidStepIndex (steps : List Step) (currentEntry : Option Vals)
    (currentIndex : Nat) : Int :=
  if currentIndex = 0 then -1
  else findPrevFrom steps currentEntry (currentIndex - 1)

/-- An annotation entry object: the five fixed fields created by
`handleVideoClick` plus the step-keyed answer fields. -/
structure Entry where
  entryId : String
  playback_time_seconds : Option ℚ
  ocr_timestamp : String
  click_x : ℚ
  click_y : ℚ
  stepValues : Vals

/-- One record of the `state.activeDots` map:
`{ color, startTime, phase, entryTime }`. -/
structure DotInfo where
  color : String
  startTime : ℕ
  phase : String
  entryTime : Option ℚ

/-- The `activeDots` JS `Map` (at most one record per entry id, by
construction of a map). -/
def Dots : Type := String → Option DotInfo

/-- `activeDots.set(id, d)`. -/
def setDot (m : Dots) (id : String) (d : DotInfo) : Dots :=
  fun x => if x = id then some d else m x

/-- `activeDots.delete(id)`. -/
def delDot (m : Dots) (id : String) : Dots :=
  fun x => if x = id then none else m x

/-- An undo/redo snapshot: deep copy of
`{ masterLog, newEntries, deletedEntryIds }` (`saveStateSnapshot`);
the `timestamp` field it also stores is never read back and is omitted. -/
structure Snapshot where
  masterLog : List Entry
  newEntries : List Entry
  deletedEntryIds : String → Bool

/-- The engine-relevant part of the global `state` object, together with
the playback-clock facts the handlers read and write
(`videoElement.currentTime` / `paused`).  `videoStartTime` is the
number `state.setupData.videoStartTime || 0`. -/
structure SessionState where
  masterLog : List Entry
  currentEntry : Option Entry
  currentStepIndex : ℕ
  spacePressed : Bool
  entryCounter : ℕ
  activeDots : Dots
  isRewinding : Bool
  recapEndTime : Option ℚ
  recapCompleted : Bool
  mode : String
  originalEntries : List Entry
  deletedEntryIds : String → Bool
  newEntries : List Entry
  undoStack : List Snapshot
  redoStack : List Snapshot
  videoCurrentTime : ℚ
  videoPaused : Bool
  videoStartTime : ℚ

/-- `state.maxUndoHistory`. -/
def maxUndoHistory : ℕ := 50

/-- The snapshot `saveStateSnapshot` / `undoLastEntry` / `redoLastEntry`
take of the current state (stringify/parse deep copy = structural copy). -/
def snapshotOf (s : SessionState) : Snapshot :=
  ⟨s.masterLog, s.newEntries, s.deletedEntryIds⟩

/-- `saveStateSnapshot()` (renderer, lines 3364-3380): push the current
snapshot, evicting the oldest once `maxUndoHistory` is exceeded.  The
stack top is the list end, as for a JS array. -/
def saveStateSnapshot (s : SessionState) : SessionState :=
  let st := s.undoStack ++ [snapshotOf s]
  { s with undoStack := if maxUndoHistory < st.length then st.drop 1 else st }

/-- `String(n).padStart(2, '0')`. -/
def pad2 (n : Int) : String :=
  let str := toString n
  if str.length < 2 then "0" ++ str else str

/-- `formatSecondsToTimestamp(seconds)` (renderer, lines 1728-1751):
one 24-hour wrap for negative inputs, `%` for inputs of a day or more,
then rendering `HH:MM:SS` via a `Date` seeded at midnight (`Date`
arithmetic from midnight is euclidean arithmetic modulo 86400 seconds). -/
def formatSecondsToTimestamp (seconds : ℚ) : String :=
  let s1 : ℚ := if seconds < 0 then seconds + 24 * 60 * 60 else seconds
  let s2 : ℚ :=
    if 24 * 60 * 60 ≤ s1 then s1 - 24 * 60 * 60 * ((⌊s1 / (24 * 60 * 60)⌋ : ℤ) : ℚ)
    else s1
  let t : ℤ := ⌊s2⌋ % (24 * 60 * 60)
  pad2 (t / 3600) ++ ":" ++ pad2 ((t % 3600) / 60) ++ ":" ++ pad2 (t % 60)

/-- `calculateTimestamp(entry)` (renderer, lines 2977-2991): start-of-day
time plus playback time minus the fixed one-second playback origin. -/
def calculateTimestamp (videoStartTime : ℚ) (entry : Entry) : String :=
  match entry.playback_time_seconds with
  | none => "N/A"
  | some p => formatSecondsToTimestamp (videoStartTime + (p - 1))

/-- `getCorrectedPlaybackTime(entry)` (renderer, lines 1801-1811); a falsy
(`0` or missing) playback time short-circuits to `0`. -/
def getCorrectedPlaybackTime (videoStartTime : ℚ) (entry : Entry) : ℚ :=
  match entry.playback_time_seconds with
  | none => 0
  | some p => if p = 0 then 0 else videoStartTime + p

/-- `finalizeEntry()` (renderer, lines 2881-2975): snapshot, stamp the
derived timestamp, append to the log, clear the redo stack, track the new
entry in audit mode, extend an active recap window, reset the draft, turn
the entry's dot red, and resume or complete playback.  `now` is
`Date.now()`. -/
def finalizeEntry (now : ℕ) (s : SessionState) : SessionState :=
  match s.currentEntry with
  | none => s
  | some draft =>
    let entryId := draft.entryId
    let s1 := saveStateSnapshot s
    let entryCopy : Entry :=
      { draft with ocr_timestamp := calculateTimestamp s.videoStartTime draft }
    let newEntries1 :=
      if s.mode = "audit" then s.newEntries ++ [entryCopy] else s.newEntries
    let recapEnd1 : Option ℚ :=
      if s.isRewinding then
        match s.recapEndTime, entryCopy.playback_time_seconds with
        | some e, some p => if e < p then some p else some e
        | e, _ => e
      else s.recapEndTime
    let dots1 :=
      match s.activeDots entryId with
      | some _ => setDot s.activeDots entryId ⟨"red", now, "finalized", none⟩
      | none => s.activeDots
    let base := { s1 with
      masterLog := s.masterLog ++ [entryCopy],
      newEntries := newEntries1,
      redoStack := ([] : List Snapshot),
      currentEntry := none,
      currentStepIndex := 0,
      activeDots := dots1 }
    match recapEnd1, s.isRewinding with
    | some e, true =>
      -- `recapManager.shouldContinueRecap(currentTime)` on the extended window
      if s.videoCurrentTime < e - 1/2 then
        { base with recapEndTime := some e, videoPaused := false }
      else
        { base with recapEndTime := none, videoPaused := true,
                    recapCompleted := true, isRewinding := false }
    | re, _ => { base with recapEndTime := re, videoPaused := false }

/-- One commit of the claims: open a draft and finalize it. -/
def commit (now : ℕ) (draft : Entry) (s : SessionState) : SessionState :=
  finalizeEntry now { s with currentEntry := some draft }

/-- `undoLastEntry()` (renderer, lines 3382-3487): snapshot-stack path when
the undo stack is non-empty, legacy pop-the-log fallback otherwise. -/
def undoLastEntry (now : ℕ) (s : SessionState) : SessionState :=
  match s.undoStack.getLast? with
  | some previousSnapshot =>
    let redo1 := s.redoStack ++ [snapshotOf s]
    let prevIds := previousSnapshot.masterLog.map (·.entryId)
    let lastRemovedEntry :=
      s.masterLog.reverse.find? (fun e => ¬ prevIds.contains e.entryId)
    let s1 := { s with
      masterLog := previousSnapshot.masterLog,
      newEntries := previousSnapshot.newEntries,
      deletedEntryIds := previousSnapshot.deletedEntryIds,
      undoStack := s.undoStack.dropLast,
      redoStack := redo1 }
    match lastRemovedEntry with
    | some e =>
      match e.playback_time_seconds with
      | some _ =>
        { s1 with
          videoCurrentTime :=
            max 0 (getCorrectedPlaybackTime s.videoStartTime e - s.videoStartTime),
          videoPaused := true,
          activeDots := setDot s1.activeDots e.entryId ⟨"orange", now, "undo", none⟩ }
      | none => s1
    | none => { s1 with activeDots := fun _ => none }
  | none =>
    match s.masterLog.getLast? with
    | none => s   -- 'Nothing to undo' warning toast
    | some lastEntry =>
      let s1 := { s with masterLog := s.masterLog.dropLast }
      let s2 :=
        match lastEntry.playback_time_seconds with
        | some _ =>
          { s1 with
            videoCurrentTime :=
              max 0 (getCorrectedPlaybackTime s.videoStartTime lastEntry - s.videoStartTime),
            videoPaused := true }
        | none => s1
      { s2 with
        activeDots := setDot s2.activeDots lastEntry.entryId ⟨"orange", now, "undo", none⟩ }

/-- `redoLastEntry()` (renderer, lines 3489-3546). -/
def redoLastEntry (s : SessionState) : SessionState :=
  match s.redoStack.getLast? with
  | none => s   -- 'Nothing to redo' warning toast
  | some redoSnapshot =>
    let undo1 := s.undoStack ++ [snapshotOf s]
    let currentIds := s.masterLog.map (·.entryId)
    let lastRestoredEntry :=
      redoSnapshot.masterLog.reverse.find? (fun e => ¬ currentIds.contains e.entryId)
    let s1 := { s with
      masterLog := redoSnapshot.masterLog,
      newEntries := redoSnapshot.newEntries,
      deletedEntryIds := redoSnapshot.deletedEntryIds,
      undoStack := undo1,
      redoStack := s.redoStack.dropLast }
    let s2 :=
      match lastRestoredEntry with
      | some e =>
        match e.playback_time_seconds with
        | some _ =>
          { s1 with
            videoCurrentTime :=
              max 0 (getCorrectedPlaybackTime s.videoStartTime e - s.videoStartTime),
            videoPaused := true }
        | none => s1
      | none => s1
    { s2 with activeDots := fun _ => none }

/-- One step of the `masterLog.reduce` of `startRecap` /
`checkRecapProgress`: keep the larger defined time. -/
def maxStep (latest : Option ℚ) (e : Entry) : Option ℚ :=
  match e.playback_time_seconds with
  | none => latest
  | some t =>
    match latest with
    | none => some t
    | some l => if l < t then some t else some l

/-- The `masterLog.reduce` of `startRecap` / `checkRecapProgress`:
largest defined `playback_time_seconds` across the log, `none` when the
log has no entry with a defined time. -/
def maxEntryTime (log : List Entry) : Option ℚ :=
  log.foldl maxStep none

/-- Pre-scan of `startRecap`: add an orange `rewind` dot for every entry
inside the recap window that does not already have a dot. -/
def preAddRecapDots (now : ℕ) (currentTimeAfterSeek recapEnd : ℚ)
    (log : List Entry) (dots : Dots) : Dots :=
  log.foldl (fun dots e =>
    match e.playback_time_seconds with
    | none => dots
    | some t =>
      if currentTimeAfterSeek ≤ t ∧ t ≤ recapEnd then
        match dots e.entryId with
        | some _ => dots
        | none => setDot dots e.entryId ⟨"orange", now, "rewind", some t⟩
      else dots) dots

/-- `startRecap()` (`recap.js`, lines 11-102, and the inline fallback at
renderer lines 3251-3360, identical up to the rewind constant
`rewindSeconds`, 10 in the module and 60 inline), including the `seeked`
callback it installs.  Note the `if (!latestEntry)` guard is JS-falsy, so
a latest entry time of exactly `0` aborts the recap. -/
def startRecap (rewindSeconds : ℚ) (now : ℕ) (s : SessionState) : SessionState :=
  if s.masterLog.isEmpty then
    { s with videoCurrentTime := max 0 (s.videoCurrentTime - rewindSeconds),
             videoPaused := true }
  else
    match maxEntryTime s.masterLog with
    | none => s
    | some latestEntry =>
      if latestEntry = 0 then s
      else
        let newPlaybackTime := max 0 (s.videoCurrentTime - rewindSeconds)
        { s with recapEndTime := some latestEntry,
                 recapCompleted := false,
                 videoCurrentTime := newPlaybackTime,
                 videoPaused := true,
                 isRewinding := true,
                 activeDots := preAddRecapDots now newPlaybackTime latestEntry
                                 s.masterLog s.activeDots }

/-- `checkRecapProgress(currentTime)` (`recap.js`, lines 107-131): extend
the window to a newer latest entry, then report whether playback reached
`endTime - 0.5` (the pause lead). -/
def checkRecapProgress (s : SessionState) (currentTime : ℚ) :
    SessionState × Bool :=
  match s.recapEndTime, s.isRewinding with
  | some e, true =>
    let e1 :=
      match maxEntryTime s.masterLog with
      | some m => if m ≠ 0 ∧ e < m then m else e
      | none => e
    ({ s with recapEndTime := some e1 }, decide (e1 - 1/2 ≤ currentTime))
  | _, _ => (s, false)

/-- The undo-dot sweep at the top of `handleVideoClick`: remove every dot
whose phase is `undo`. -/
def clearUndoDots (dots : Dots) : Dots :=
  fun id =>
    match dots id with
    | some d => if d.phase = "undo" then none else some d
    | none => none

/-- Entry id generation of `handleVideoClick`:
`entry_${Date.now()}_${state.entryCounter++}`. -/
def mkEntryId (now counter : ℕ) : String :=
  "entry_" ++ toString now ++ "_" ++ toString counter

/-- `handleVideoClick(e)` (renderer, lines 2349-2437).  `coordsValid`
summarizes the three coordinate-validation early returns (video dimensions
available, scale finite and positive, native coordinates finite);
`nativeX`/`nativeY` are the converted click coordinates.  The
`showChoiceModal()` step navigation it triggers is modelled separately
(`showChoiceModalNav`). -/
def handleVideoClick (now : ℕ) (coordsValid : Bool) (nativeX nativeY : ℚ)
    (s : SessionState) : SessionState :=
  if ¬ (s.spacePressed ∨ (s.isRewinding ∧ s.recapEndTime ≠ none)) then s
  else
    let dots1 := clearUndoDots s.activeDots
    let s1 := { s with activeDots := dots1, videoPaused := true }
    if ¬ coordsValid then s1
    else
      let entryId := mkEntryId now s.entryCounter
      let draft : Entry :=
        ⟨entryId, some s.videoCurrentTime, "", nativeX, nativeY, emptyVals⟩
      { s1 with
        entryCounter := s.entryCounter + 1,
        currentEntry := some draft,
        activeDots := setDot dots1 entryId ⟨"green", now, "waiting", none⟩ }

/-- Time-window body of the rewind section of `drawRedDots` for an entry
inside the recap window: preview/recent dots are added or refreshed,
expired rewind dots removed; `waiting`, `finalized` and `undo` dots are
left untouched by every branch. -/
def rewindScanBody (currentTime : ℚ) (now : ℕ) (dots : Dots) (id : String)
    (entryTime : ℚ) : Dots :=
  let timeDiff := currentTime - entryTime
  if timeDiff < 0 then
    match dots id with
    | none => setDot dots id ⟨"orange", now, "rewind", some entryTime⟩
    | some d =>
      if d.phase ≠ "waiting" ∧ d.phase ≠ "finalized" ∧ d.phase ≠ "undo" then
        setDot dots id
          ⟨"orange", if d.startTime = 0 then now else d.startTime,
           "rewind", some entryTime⟩
      else dots
  else if timeDiff < 37/20 then
    -- `if (!existingDot || ...) { if (!activeDots.has(id)) set(...) }`
    match dots id with
    | none => setDot dots id ⟨"orange", now, "rewind", some entryTime⟩
    | some _ => dots
  else
    match dots id with
    | some d => if d.phase = "rewind" then delDot dots id else dots
    | none => dots

/-- Per-entry body of the rewind section of `drawRedDots` (renderer, lines
1627-1705), the part that mutates `activeDots`. -/
def rewindScanStep (currentTime : ℚ) (recapEnd : Option ℚ) (now : ℕ)
    (dots : Dots) (e : Entry) : Dots :=
  match e.playback_time_seconds with
  | none => dots
  | some entryTime =>
    match recapEnd with
    | some m =>
      -- entry beyond the recap window: drop a stale rewind dot
      if m < entryTime then
        match dots e.entryId with
        | some d => if d.phase = "rewind" then delDot dots e.entryId else dots
        | none => dots
      else rewindScanBody currentTime now dots e.entryId entryTime
    | none => rewindScanBody currentTime now dots e.entryId entryTime

/-- The rewind section of a `drawRedDots` scheduler tick: only runs while
`state.isRewinding`, folding the per-entry body over the log. -/
def drawRedDotsRewindScan (currentTime : ℚ) (now : ℕ) (s : SessionState) : Dots :=
  if s.isRewinding then
    s.masterLog.foldl (rewindScanStep currentTime s.recapEndTime now) s.activeDots
  else s.activeDots

/-- Entry selection of `exportToCSV` (renderer, lines 3809-3827): in audit
mode, non-deleted originals followed by non-deleted new entries; otherwise
the whole log. -/
def entriesToExport (s : SessionState) : List Entry :=
  if s.mode = "audit" then
    s.originalEntries.filter (fun e => ¬ s.deletedEntryIds e.entryId) ++
      s.newEntries.filter (fun e => ¬ s.deletedEntryIds e.entryId)
  else s.masterLog

/-- `deletedEntryIds.add(id)`. -/
def setDeleted (m : String → Bool) (id : String) : String → Bool :=
  fun x => if x = id then true else m x

/-- `findIndex` + `splice(idx, 1)`: remove the first entry with the id. -/
def removeById (l : List Entry) (id : String) : List Entry :=
  match l.findIdx? (fun e => e.entryId = id) with
  | some i => l.eraseIdx i
  | none => l

/-- `deleteEntry(entry)` (renderer, lines 3949-4010), after the user
confirms: originals are soft-deleted via `deletedEntryIds`, new entries
are physically removed from log and new-entry list. -/
def deleteEntry (entry : Entry) (s : SessionState) : SessionState :=
  let s1 := saveStateSnapshot s
  if s.mode = "audit" then
    if s.originalEntries.any (fun e => e.entryId = entry.entryId) then
      { s1 with deletedEntryIds := setDeleted s.deletedEntryIds entry.entryId,
                redoStack := ([] : List Snapshot),
                activeDots := delDot s.activeDots entry.entryId }
    else if s.newEntries.any (fun e => e.entryId = entry.entryId) then
      { s1 with masterLog := removeById s.masterLog entry.entryId,
                newEntries := removeById s.newEntries entry.entryId,
                redoStack := ([] : List Snapshot),
                activeDots := delDot s.activeDots entry.entryId }
    else s1   -- 'Entry not found' (snapshot already pushed)
  else
    if s.masterLog.any (fun e => e.entryId = entry.entryId) then
      { s1 with masterLog := removeById s.masterLog entry.entryId,
                redoStack := ([] : List Snapshot),
                activeDots := delDot s.activeDots entry.entryId }
    else s1   -- 'Entry not found' (snapshot already pushed)

/-! ## The drafting state machine (EntrySession navigation) -/

/-- The draft-navigation view of the session: the step-keyed answer fields
of `state.currentEntry` plus `state.currentStepIndex`. -/
structure DraftState where
  values : Vals
  stepIndex : ℕ

/-- Outcome of a navigation step: the draft stays open at some step, or
the modal flow closes it (`finalizeEntry` from `showChoiceModal` /
`handleChoiceSelection`). -/
inductive NavResult where
  | open (d : DraftState)
  | finalized
deriving Inhabited

/-- `step_id` of the step at index `i` (`""` out of range; the machine
only reads it in range). -/
def stepIdAt (steps : List Step) (i : ℕ) : String :=
  ((steps[i]?).map Step.step_id).getD ""

/-- The navigation part of `showChoiceModal()` (renderer, lines 2447-2457):
advance `currentStepIndex` to the next valid step (`nextStepIndex`),
finalizing the entry when none is left. -/
def showChoiceModalNav (steps : List Step) (d : DraftState) : NavResult :=
  if findNextValidStepIndex steps (some d.values) d.stepIndex = -1 ∨
      (steps.length : Int) ≤ findNextValidStepIndex steps (some d.values) d.stepIndex then
    .finalized
  else
    .open ⟨d.values, (findNextValidStepIndex steps (some d.values) d.stepIndex).toNat⟩

/-- `handleChoiceSelection(value, stepId)` (renderer, lines 2863-2879) for
the step currently shown (`currentEntry[stepId] = value`, then advance to
`findNextValidStepIndex(currentStepIndex + 1)` or finalize), followed by
the `showChoiceModal()` it triggers. -/
def answer (steps : List Step) (d : DraftState) (v : String) : NavResult :=
  if findNextValidStepIndex steps
        (some (setVal d.values (stepIdAt steps d.stepIndex) v))
        (d.stepIndex + 1) = -1 ∨
      (steps.length : Int) ≤ findNextValidStepIndex steps
        (some (setVal d.values (stepIdAt steps d.stepIndex) v))
        (d.stepIndex + 1) then
    .finalized
  else
    showChoiceModalNav steps
      ⟨setVal d.values (stepIdAt steps d.stepIndex) v,
       (findNextValidStepIndex steps
         (some (setVal d.values (stepIdAt steps d.stepIndex) v))
         (d.stepIndex + 1)).toNat⟩

/-- The purge loop of `goBackToPreviousStep` (renderer, lines 2810-2819):
walk the steps after `i`, deleting every recorded (truthy) value whose
condition no longer holds, re-evaluating against the shrinking draft. -/
def purgeFrom (steps : List Step) (vals : Vals) (i : ℕ) : Vals :=
  if h : i < steps.length then
    let st := steps.get ⟨i, h⟩
    let vals1 :=
      if isTruthy (vals st.step_id) ∧ ¬ evaluateStepCondition st i (some vals) then
        delVal vals st.step_id
      else vals
    purgeFrom steps vals1 (i + 1)
  else vals
termination_by steps.length - i

/-- Outcome of `goBackToPreviousStep`: the draft stays open (possibly
unchanged for the index-0 no-op), or is closed (cancelled when no previous
valid step exists, or finalized by the ensuing `showChoiceModal`). -/
inductive GBResult where
  | stay (d : DraftState)
  | closed
deriving Inhabited

/-- Deletion of the current step's recorded value on back-navigation
(`if (currentStep && state.currentEntry[currentStep.step_id]) delete`). -/
def goBackVals1 (steps : List Step) (d : DraftState) : Vals :=
  match steps[d.stepIndex]? with
  | some currentStep =>
    if isTruthy (d.values currentStep.step_id) then
      delVal d.values currentStep.step_id
    else d.values
  | none => d.values

/-- `goBackToPreviousStep()` (renderer, lines 2792-2826): no-op at index 0;
cancel when no previous valid step exists; otherwise delete the current
step's recorded value, purge invalidated later values, move to the
previous valid step and re-run `showChoiceModal()`. -/
def goBack (steps : List Step) (d : DraftState) : GBResult :=
  if d.stepIndex = 0 then .stay d
  else if findPreviousValidStepIndex steps (some d.values) d.stepIndex = -1 then
    .closed
  else
    match showChoiceModalNav steps
        ⟨purgeFrom steps (goBackVals1 steps d) (d.stepIndex + 1),
         (findPreviousValidStepIndex steps (some d.values) d.stepIndex).toNat⟩ with
    | .open d1 => .stay d1
    | .finalized => .closed

/-- `n` successive `goBack` calls (stopping if the draft closes). -/
def goBackN (steps : List Step) : ℕ → DraftState → GBResult
  | 0, d => .stay d
  | n + 1, d =>
    match goBack steps d with
    | .stay d1 => goBackN steps n d1
    | .closed => .closed

/-- A sequence of forward answers along which the draft stays open. -/
inductive ForwardTrace (steps : List Step) : DraftState → List String → DraftState → Prop where
  | nil (d : DraftState) : ForwardTrace steps d [] d
  | cons {d d1 d2 : DraftState} {v : String} {vs : List String} :
      answer steps d v = .open d1 → ForwardTrace steps d1 vs d2 →
      ForwardTrace steps d (v :: vs) d2

/-! ## Spec-side definitions (for refinement comparisons) -/

/-- Modelled from the spec (§4.1, claim C5): a step qualifies when it has
no condition, or its condition evaluates true against the draft's recorded
value for the referenced step. -/
def specQualifies (vals : Vals) (step : Step) : Prop :=
  step.condition = none ∨
    ∃ c v, step.condition = some c ∧ vals c.ref = some v ∧ applyOperator c v = true

/-- Modelled from the spec (claim C10): the `HH:MM:SS` rendering, taken
modulo 24 hours, of a time in seconds. -/
def specHMS (x : ℚ) : String :=
  let t : ℤ := ⌊x⌋ % 86400
  pad2 (t / 3600) ++ ":" ++ pad2 ((t % 3600) / 60) ++ ":" ++ pad2 (t % 60)

/-! ## Timestamp derivation (claim C10) -/

theorem formatSecondsToTimestamp_eq_specHMS (x : ℚ) :
    formatSecondsToTimestamp x = specHMS x := by
  have hrender : ∀ t u : ℤ, t = u →
      pad2 (t / 3600) ++ ":" ++ pad2 ((t % 3600) / 60) ++ ":" ++ pad2 (t % 60) =
      pad2 (u / 3600) ++ ":" ++ pad2 ((u % 3600) / 60) ++ ":" ++ pad2 (u % 60) := by
    intro t u h; rw [h]
  unfold formatSecondsToTimestamp specHMS
  by_cases hx : x < 0
  · have hle : ¬ ((24 * 60 * 60 : ℚ) ≤ x + 24 * 60 * 60) := by linarith
    simp only [if_pos hx, if_neg hle]
    apply hrender
    have hfl : ⌊x + (24 * 60 * 60 : ℚ)⌋ = ⌊x⌋ + 86400 := by
      have h := Int.floor_add_int x (86400 : ℤ)
      push_cast at h
      norm_num at h ⊢
    rw [hfl]
    omega
  · by_cases hge : (24 * 60 * 60 : ℚ) ≤ x
    · simp only [if_neg hx, if_pos hge]
      apply hrender
      have hfl : ⌊x - 24 * 60 * 60 * ((⌊x / (24 * 60 * 60)⌋ : ℤ) : ℚ)⌋ =
          ⌊x⌋ - 86400 * ⌊x / (24 * 60 * 60)⌋ := by
        have h := Int.floor_sub_int x (86400 * ⌊x / (24 * 60 * 60)⌋)
        push_cast at h
        norm_num at h ⊢
        convert h using 3
      rw [hfl]
      omega
    · simp only [if_neg hx, if_neg hge]
      apply hrender
      norm_num

theorem finalizeEntry_masterLog (now : ℕ) (s : SessionState) (draft : Entry)
    (h : s.currentEntry = some draft) :
    (finalizeEntry now s).masterLog =
      s.masterLog ++
        [{ draft with ocr_timestamp := calculateTimestamp s.videoStartTime draft }] := by
  unfold finalizeEntry
  rw [h]
  dsimp only
  split <;> first | rfl | (split <;> rfl)

/-- C10: the derived timestamp stored on an entry at commit is the
`HH:MM:SS` rendering, modulo 24 hours, of
`videoStartTime + (playbackTime - 1)`: the start-of-day offset plus the
playback time, minus the fixed one-second playback-origin correction. -/
theorem commit_timestamp_is_specHMS (now : ℕ) (s : SessionState) (draft : Entry) (p : ℚ)
    (hdraft : s.currentEntry = some draft)
    (hp : draft.playback_time_seconds = some p) :
    (finalizeEntry now s).masterLog.getLast? =
      some { draft with ocr_timestamp := specHMS (s.videoStartTime + (p - 1)) } := by
  rw [finalizeEntry_masterLog now s draft hdraft, List.getLast?_concat]
  unfold calculateTimestamp
  rw [hp]
  dsimp only
  rw [formatSecondsToTimestamp_eq_specHMS]

/-- A minimal concrete session state for witnesses. -/
def exampleState : SessionState where
  masterLog := []
  currentEntry := none
  currentStepIndex := 0
  spacePressed := true
  entryCounter := 0
  activeDots := fun _ => none
  isRewinding := false
  recapEndTime := none
  recapCompleted := false
  mode := "entry"
  originalEntries := []
  deletedEntryIds := fun _ => false
  newEntries := []
  undoStack := []
  redoStack := []
  videoCurrentTime := 20
  videoPaused := false
  videoStartTime := 25200

/-- A concrete entry for witnesses. -/
def exampleEntry (id : String) (t : ℚ) : Entry :=
  ⟨id, some t, "", 0, 0, emptyVals⟩

/-- Witness for C10 at a concrete commit: start-of-day 07:00:00 (25200 s),
playback time 2 s. -/
theorem commit_timestamp_is_specHMS_witness :
    (finalizeEntry 0
        { exampleState with currentEntry := some (exampleEntry "e1" 2) }).masterLog.getLast? =
      some { exampleEntry "e1" 2 with ocr_timestamp := specHMS (25200 + (2 - 1)) } :=
  commit_timestamp_is_specHMS 0
    { exampleState with currentEntry := some (exampleEntry "e1" 2) }
    (exampleEntry "e1" 2) 2 rfl rfl

/-! ## Characterization of the step scans (claim C5 and groundwork for C6) -/

theorem evalAt_of_lt (steps : List Step) (ce : Option Vals) {i : ℕ}
    (hi : i < steps.length) :
    evalAt steps ce i = evaluateStepCondition (steps.get ⟨i, hi⟩) i ce := by
  unfold evalAt
  rw [List.getElem?_eq_getElem hi]
  rfl

theorem evalAt_of_ge (steps : List Step) (ce : Option Vals) {i : ℕ}
    (hi : steps.length ≤ i) : evalAt steps ce i = false := by
  unfold evalAt
  rw [List.getElem?_eq_none (by omega)]

/-- Full characterization of the forward scan: it returns `-1` with no
qualifying step at or beyond `i`, or the smallest qualifying index. -/
theorem findNextFrom_spec (steps : List Step) (ce : Option Vals) (i : ℕ) :
    (findNextFrom steps ce i = -1 ∧ ∀ j, i ≤ j → evalAt steps ce j = false) ∨
      ∃ k : ℕ, findNextFrom steps ce i = (k : Int) ∧ i ≤ k ∧ k < steps.length ∧
        evalAt steps ce k = true ∧ ∀ j, i ≤ j → j < k → evalAt steps ce j = false := by
  have key : ∀ n i, steps.length - i ≤ n →
      (findNextFrom steps ce i = -1 ∧ ∀ j, i ≤ j → evalAt steps ce j = false) ∨
      ∃ k : ℕ, findNextFrom steps ce i = (k : Int) ∧ i ≤ k ∧ k < steps.length ∧
        evalAt steps ce k = true ∧ ∀ j, i ≤ j → j < k → evalAt steps ce j = false := by
    intro n
    induction n with
    | zero =>
      intro i hle
      left
      refine ⟨by unfold findNextFrom; rw [dif_neg (by omega)], fun j hj => ?_⟩
      exact evalAt_of_ge steps ce (by omega)
    | succ n ih =>
      intro i hle
      by_cases hi : i < steps.length
      · have heval := evalAt_of_lt steps ce hi
        by_cases hq : evaluateStepCondition (steps.get ⟨i, hi⟩) i ce = true
        · right
          refine ⟨i, ?_, le_refl i, hi, by rw [heval]; exact hq,
            fun j h1 h2 => absurd h1 (by omega)⟩
          unfold findNextFrom
          rw [dif_pos hi, if_pos hq]
        · have hstep : findNextFrom steps ce i = findNextFrom steps ce (i + 1) := by
            conv_lhs => unfold findNextFrom
            rw [dif_pos hi, if_neg hq]
          have hi_false : evalAt steps ce i = false := by
            rw [heval]; exact Bool.eq_false_iff.mpr hq
          rcases ih (i + 1) (by omega) with ⟨hm1, hall⟩ | ⟨k, hk, hik, hklen, hkq, hgap⟩
          · left
            refine ⟨by rw [hstep]; exact hm1, fun j hj => ?_⟩
            rcases Nat.eq_or_lt_of_le hj with rfl | hlt
            · exact hi_false
            · exact hall j (by omega)
          · right
            refine ⟨k, by rw [hstep]; exact hk, by omega, hklen, hkq,
              fun j h1 h2 => ?_⟩
            rcases Nat.eq_or_lt_of_le h1 with rfl | hlt
            · exact hi_false
            · exact hgap j (by omega) h2
      · left
        refine ⟨by unfold findNextFrom; rw [dif_neg hi], fun j hj => ?_⟩
        exact evalAt_of_ge steps ce (by omega)
  exact key steps.length i (by omega)

/-- Determinization of the forward scan at a known smallest qualifying
index. -/
theorem findNextFrom_eq_of (steps : List Step) (ce : Option Vals) {i k : ℕ}
    (hik : i ≤ k) (hk : k < steps.length) (hq : evalAt steps ce k = true)
    (hgap : ∀ j, i ≤ j → j < k → evalAt steps ce j = false) :
    findNextFrom steps ce i = (k : Int) := by
  rcases findNextFrom_spec steps ce i with ⟨_, hall⟩ | ⟨m, hm, him, hmlen, hmq, hmgap⟩
  · rw [hall k hik] at hq; cases hq
  · rcases Nat.lt_trichotomy m k with hlt | rfl | hlt
    · rw [hgap m him hlt] at hmq; cases hmq
    · exact hm
    · rw [hmgap k hik hlt] at hq; cases hq

theorem findNextFrom_neg_one_iff (steps : List Step) (ce : Option Vals) (i : ℕ) :
    findNextFrom steps ce i = -1 ↔ ∀ j, i ≤ j → evalAt steps ce j = false := by
  rcases findNextFrom_spec steps ce i with ⟨hm1, hall⟩ | ⟨k, hk, hik, _, hkq, _⟩
  · exact ⟨fun _ => hall, fun _ => hm1⟩
  · constructor
    · intro h; rw [h] at hk; cases hk   -- (-1 : Int) = k impossible
    · intro h; rw [h k hik] at hkq; cases hkq

/-- Backward-scan characterization: result at a known largest qualifying
index at or below `i`. -/
theorem findPrevFrom_eq_of (steps : List Step) (ce : Option Vals) {i k : ℕ}
    (hki : k ≤ i) (hq : evalAt steps ce k = true)
    (hgap : ∀ j, k < j → j ≤ i → evalAt steps ce j = false) :
    findPrevFrom steps ce i = (k : Int) := by
  induction i with
  | zero =>
    have hk0 : k = 0 := by omega
    subst hk0
    unfold findPrevFrom
    rw [if_pos hq]
    rfl
  | succ n ih =>
    rcases Nat.eq_or_lt_of_le hki with rfl | hlt
    · unfold findPrevFrom
      rw [if_pos hq]
    · have hfalse : evalAt steps ce (n + 1) = false := hgap (n + 1) (by omega) (le_refl _)
      unfold findPrevFrom
      rw [if_neg (by rw [hfalse]; simp)]
      exact ih (by omega) (fun j h1 h2 => hgap j h1 (by omega))

theorem findPrevFrom_neg_one_iff (steps : List Step) (ce : Option Vals) (i : ℕ) :
    findPrevFrom steps ce i = -1 ↔ ∀ j, j ≤ i → evalAt steps ce j = false := by
  induction i with
  | zero =>
    unfold findPrevFrom
    constructor
    · intro h j hj
      have hj0 : j = 0 := by omega
      subst hj0
      by_cases hq : evalAt steps ce 0 = true
      · rw [if_pos hq] at h; cases h
      · exact Bool.eq_false_iff.mpr hq
    · intro h
      rw [if_neg (by rw [h 0 (le_refl _)]; simp)]
  | succ n ih =>
    unfold findPrevFrom
    constructor
    · intro h j hj
      by_cases hq : evalAt steps ce (n + 1) = true
      · rw [if_pos hq] at h; cases h
      · rcases Nat.eq_or_lt_of_le hj with rfl | hlt
        · exact Bool.eq_false_iff.mpr hq
        · rw [if_neg hq] at h
          exact ih.mp h j (by omega)
    · intro h
      rw [if_neg (by rw [h (n + 1) (le_refl _)]; simp)]
      exact ih.mpr (fun j hj => h j (by omega))

theorem findPrevFrom_spec (steps : List Step) (ce : Option Vals) (i : ℕ) :
    findPrevFrom steps ce i = -1 ∨
      ∃ k : ℕ, findPrevFrom steps ce i = (k : Int) ∧ k ≤ i ∧
        evalAt steps ce k = true ∧ ∀ j, k < j → j ≤ i → evalAt steps ce j = false := by
  induction i with
  | zero =>
    by_cases hq : evalAt steps ce 0 = true
    · right
      exact ⟨0, by unfold findPrevFrom; rw [if_pos hq]; rfl, le_refl _, hq,
        fun j h1 h2 => by omega⟩
    · left
      unfold findPrevFrom
      rw [if_neg hq]
  | succ n ih =>
    by_cases hq : evalAt steps ce (n + 1) = true
    · right
      exact ⟨n + 1, by unfold findPrevFrom; rw [if_pos hq], le_refl _, hq,
        fun j h1 h2 => by omega⟩
    · have hstep : findPrevFrom steps ce (n + 1) = findPrevFrom steps ce n := by
        show (if evalAt steps ce (n + 1) = true then ((n + 1 : ℕ) : Int)
          else findPrevFrom steps ce n) = findPrevFrom steps ce n
        rw [if_neg hq]
      rcases ih with hm1 | ⟨k, hk, hki, hkq, hgap⟩
      · left; rw [hstep]; exact hm1
      · right
        refine ⟨k, by rw [hstep]; exact hk, by omega, hkq, fun j h1 h2 => ?_⟩
        rcases Nat.eq_or_lt_of_le h2 with rfl | hlt
        · exact Bool.eq_false_iff.mpr hq
        · exact hgap j h1 (by omega)

/-- A step's condition whose referenced step has no recorded value makes
the step unqualified (it is skipped, not an error). -/
theorem evaluateStepCondition_unanswered (step : Step) (c : Cond) (i : ℕ) (vals : Vals)
    (hc : step.condition = some c) (hv : vals c.ref = none) :
    evaluateStepCondition step i (some vals) = false := by
  unfold evaluateStepCondition
  rw [hc]
  dsimp only
  rw [if_neg]
  rintro ⟨-, h2⟩
  rw [hv] at h2
  cases h2

/-- With a draft open, the code's condition check agrees with the spec's
qualification predicate, provided the condition references a nonempty
step id (the code's JS-truthiness test `step.condition.step_id &&`
rejects an empty referenced id outright). -/
theorem evaluateStepCondition_iff_specQualifies (step : Step) (i : ℕ) (vals : Vals)
    (href : ∀ c, step.condition = some c → c.ref ≠ "") :
    (evaluateStepCondition step i (some vals) = true ↔ specQualifies vals step) := by
  unfold evaluateStepCondition specQualifies
  cases hc : step.condition with
  | none => simp
  | some c =>
    have hr : c.ref ≠ "" := href c hc
    dsimp only
    constructor
    · intro h
      by_cases hs : (vals c.ref).isSome = true
      · rw [if_pos ⟨hr, hs⟩] at h
        obtain ⟨v, hv⟩ := Option.isSome_iff_exists.mp hs
        rw [hv] at h
        exact Or.inr ⟨c, v, rfl, hv, h⟩
      · rw [if_neg (fun hand => hs hand.2)] at h
        cases h
    · rintro (h | ⟨c', v, hc', hv, hop⟩)
      · cases h
      · obtain rfl : c = c' := by injection hc'
        rw [if_pos ⟨hr, by rw [hv]; rfl⟩, hv]
        exact hop

/-- C5: `findNextValidStepIndex` with an open draft returns the smallest
index at or after `fromIndex` whose step qualifies per the spec (no
condition, or condition true against the draft's recorded value for the
referenced step); a condition whose referenced step has no recorded value
is unqualified and skipped; and the result is `-1` exactly when no
qualifying step at or after `fromIndex` exists.  Conditions are assumed
to reference nonempty step ids (required config field). -/
theorem findNextValidStepIndex_spec (steps : List Step) (vals : Vals) (fromIndex : ℕ)
    (href : ∀ st ∈ steps, ∀ c, st.condition = some c → c.ref ≠ "") :
    (findNextValidStepIndex steps (some vals) fromIndex = -1 ↔
       ∀ j st, fromIndex ≤ j → steps[j]? = some st → ¬ specQualifies vals st) ∧
    (∀ k : ℕ, findNextValidStepIndex steps (some vals) fromIndex = (k : Int) →
       fromIndex ≤ k ∧ (∃ st, steps[k]? = some st ∧ specQualifies vals st) ∧
       ∀ j st, fromIndex ≤ j → j < k → steps[j]? = some st → ¬ specQualifies vals st) ∧
    (∀ (j : ℕ) (st : Step) (c : Cond), steps[j]? = some st →
       st.condition = some c → vals c.ref = none →
       evaluateStepCondition st j (some vals) = false) := by
  have hmem : ∀ (j : ℕ) (st : Step), steps[j]? = some st → st ∈ steps := by
    intro j st h
    have hj : j < steps.length := by
      by_contra hge
      rw [List.getElem?_eq_none (by omega)] at h
      cases h
    rw [List.getElem?_eq_getElem hj] at h
    obtain rfl : steps[j] = st := by injection h
    exact List.getElem_mem hj
  have hbridge : ∀ (j : ℕ) (st : Step), steps[j]? = some st →
      (evalAt steps (some vals) j = true ↔ specQualifies vals st) := by
    intro j st h
    unfold evalAt
    rw [h]
    exact evaluateStepCondition_iff_specQualifies st j vals (href st (hmem j st h))
  refine ⟨?_, ?_, ?_⟩
  · rw [show findNextValidStepIndex steps (some vals) fromIndex =
        findNextFrom steps (some vals) fromIndex from rfl,
      findNextFrom_neg_one_iff]
    constructor
    · intro hall j st hj hst hq
      have hfalse := hall j hj
      rw [(hbridge j st hst).mpr hq] at hfalse
      cases hfalse
    · intro h j hj
      cases hst : steps[j]? with
      | none =>
        unfold evalAt
        rw [hst]
      | some st =>
        by_cases hq : evalAt steps (some vals) j = true
        · exact absurd ((hbridge j st hst).mp hq) (h j st hj hst)
        · exact Bool.eq_false_iff.mpr hq
  · intro k hk
    rcases findNextFrom_spec steps (some vals) fromIndex with ⟨hm1, _⟩ |
        ⟨m, hm, him, hmlen, hmq, hgap⟩
    · rw [show findNextValidStepIndex steps (some vals) fromIndex =
          findNextFrom steps (some vals) fromIndex from rfl, hm1] at hk
      omega
    · rw [show findNextValidStepIndex steps (some vals) fromIndex =
          findNextFrom steps (some vals) fromIndex from rfl, hm] at hk
      have hmk : m = k := by omega
      rw [← hmk]
      have hst : steps[m]? = some (steps.get ⟨m, hmlen⟩) := by
        rw [List.getElem?_eq_getElem hmlen]
        rfl
      refine ⟨him, ⟨steps.get ⟨m, hmlen⟩, hst, (hbridge m _ hst).mp hmq⟩,
        fun j st h1 h2 hstj hq => ?_⟩
      have hfalse := hgap j h1 h2
      rw [(hbridge j st hstj).mpr hq] at hfalse
      cases hfalse
  · intro j st c hst hc hv
    exact evaluateStepCondition_unanswered st c j vals hc hv

/-- The two-step config of spec scenario 1: a `VehicleType` choice and a
`LicensePlate` step conditional on `VehicleType == truck`. -/
def wSteps : List Step :=
  [⟨"VehicleType", none⟩,
   ⟨"LicensePlate", some ⟨"VehicleType", none, some "truck", none⟩⟩]

/-- A draft that answered `VehicleType` with `car`. -/
def wVals : Vals := setVal emptyVals "VehicleType" "car"

/-- Witness for C5 on the scenario-1 config with `VehicleType = car`. -/
theorem findNextValidStepIndex_spec_witness :
    findNextValidStepIndex wSteps (some wVals) 0 = -1 ↔
      ∀ j st, 0 ≤ j → wSteps[j]? = some st → ¬ specQualifies wVals st := by
  have href : ∀ st ∈ wSteps, ∀ c, st.condition = some c → c.ref ≠ "" := by
    intro st hst c hc
    fin_cases hst
    · cases hc
    · injection hc with h
      subst h
      decide
  exact (findNextValidStepIndex_spec wSteps wVals 0 href).1

/-! ## Recap window monotonicity (claim C3) -/

theorem finalizeEntry_recapEndTime_mono (now : ℕ) (s : SessionState) (e e2 : ℚ)
    (hrw : s.isRewinding = true) (he : s.recapEndTime = some e)
    (h : (finalizeEntry now s).recapEndTime = some e2) : e ≤ e2 := by
  unfold finalizeEntry at h
  cases hce : s.currentEntry with
  | none =>
    rw [hce] at h
    dsimp only at h
    rw [he] at h
    injection h with h
    exact le_of_eq h
  | some draft =>
    rw [hce] at h
    dsimp only at h
    have hre : ∃ eX, (if s.isRewinding = true then
        match s.recapEndTime,
            ({ draft with
                ocr_timestamp :=
                  calculateTimestamp s.videoStartTime draft } : Entry).playback_time_seconds with
        | some a, some p => if a < p then some p else some a
        | a, _ => a
      else s.recapEndTime) = some eX ∧ e ≤ eX := by
      rw [hrw, he]
      cases hp : draft.playback_time_seconds with
      | none => exact ⟨e, by simp, le_refl e⟩
      | some p =>
        by_cases hep : e < p
        · refine ⟨p, ?_, le_of_lt hep⟩
          simp [hp, hep]
        · refine ⟨e, ?_, le_refl e⟩
          simp [hp, hep]
    obtain ⟨eX, hEX, hle⟩ := hre
    rw [hEX, hrw] at h
    dsimp only at h
    split at h
    · injection h with h
      subst h
      exact hle
    · cases h

/-- C3: while a recap window is active (`isRewinding` with a stored end
time `e`), the end time is non-decreasing: a `checkRecapProgress` tick
only ever extends it to a newer latest entry, and a commit during review
(`finalizeEntry`) either extends it or completes the recap (in which case
no end time remains stored). -/
theorem recap_endTime_monotone (s : SessionState) (e ct : ℚ) (now : ℕ) (draft : Entry)
    (hrw : s.isRewinding = true) (he : s.recapEndTime = some e) :
    (∃ e1, (checkRecapProgress s ct).1.recapEndTime = some e1 ∧ e ≤ e1) ∧
    (∀ e2, (commit now draft s).recapEndTime = some e2 → e ≤ e2) := by
  constructor
  · unfold checkRecapProgress
    rw [he, hrw]
    dsimp only
    cases hm : maxEntryTime s.masterLog with
    | none => exact ⟨e, rfl, le_refl e⟩
    | some m =>
      dsimp only
      by_cases hc : m ≠ 0 ∧ e < m
      · rw [if_pos hc]
        exact ⟨m, rfl, le_of_lt hc.2⟩
      · rw [if_neg hc]
        exact ⟨e, rfl, le_refl e⟩
  · intro e2 h
    exact finalizeEntry_recapEndTime_mono now { s with currentEntry := some draft }
      e e2 hrw he h

/-- Concrete mid-recap state for the C3 witness: window end 30, one log
entry at 35. -/
def wRecapState : SessionState :=
  { exampleState with
    isRewinding := true
    recapEndTime := some 30
    masterLog := [exampleEntry "a" 35] }

/-- Witness for C3: the state `wRecapState`, ticked at playback time 0 and
committed over with a draft at time 31. -/
theorem recap_endTime_monotone_witness :
    (∃ e1, (checkRecapProgress wRecapState 0).1.recapEndTime = some e1 ∧
        (30 : ℚ) ≤ e1) ∧
    (∀ e2, (commit 0 (exampleEntry "b" 31) wRecapState).recapEndTime = some e2 →
        (30 : ℚ) ≤ e2) :=
  recap_endTime_monotone wRecapState 30 0 0 (exampleEntry "b" 31) rfl rfl

/-! ## Recap start (claim C2) -/

theorem maxEntryTime_fold (log : List Entry) :
    ∀ (acc : Option ℚ) (m : ℚ), log.foldl maxStep acc = some m →
      (∀ e ∈ log, ∀ t, e.playback_time_seconds = some t → t ≤ m) ∧
      (acc = some m ∨ ∃ e ∈ log, e.playback_time_seconds = some m) ∧
      (∀ a, acc = some a → a ≤ m) := by
  induction log with
  | nil =>
    intro acc m h
    refine ⟨fun e he => absurd he (List.not_mem_nil e), Or.inl h, fun a ha => ?_⟩
    rw [ha] at h
    injection h with h
    exact le_of_eq h
  | cons e log ih =>
    intro acc m h
    rw [List.foldl_cons] at h
    obtain ⟨hall, hor, hacc⟩ := ih (maxStep acc e) m h
    have hstep_le : ∀ a, acc = some a → a ≤ m := by
      intro a ha
      cases hp : e.playback_time_seconds with
      | none => exact hacc a (by rw [show maxStep acc e = acc by unfold maxStep; rw [hp], ha])
      | some t =>
        have hstep : maxStep acc e = if a < t then some t else some a := by
          unfold maxStep
          rw [hp, ha]
        by_cases hat : a < t
        · exact le_trans (le_of_lt hat) (hacc t (by rw [hstep, if_pos hat]))
        · exact hacc a (by rw [hstep, if_neg hat])
    have hself : ∀ t, e.playback_time_seconds = some t → t ≤ m := by
      intro t hp
      cases hA : acc with
      | none =>
        exact hacc t (by unfold maxStep; rw [hp, hA])
      | some l =>
        have hstep : maxStep acc e = if l < t then some t else some l := by
          unfold maxStep
          rw [hp, hA]
        by_cases hlt : l < t
        · exact hacc t (by rw [hstep, if_pos hlt])
        · exact le_trans (le_of_not_lt hlt) (hacc l (by rw [hstep, if_neg hlt]))
    refine ⟨?_, ?_, hstep_le⟩
    · intro e1 he1 t hp
      rcases List.mem_cons.mp he1 with rfl | hmem
      · exact hself t hp
      · exact hall e1 hmem t hp
    · rcases hor with hacc1 | ⟨e1, he1, hp1⟩
      · cases hp : e.playback_time_seconds with
        | none =>
          rw [show maxStep acc e = acc by unfold maxStep; rw [hp]] at hacc1
          exact Or.inl hacc1
        | some t =>
          cases hA : acc with
          | none =>
            rw [show maxStep acc e = some t by unfold maxStep; rw [hp, hA]] at hacc1
            injection hacc1 with h1
            exact Or.inr ⟨e, List.mem_cons_self e log, by rw [hp, h1]⟩
          | some l =>
            rw [show maxStep acc e = if l < t then some t else some l by
              unfold maxStep; rw [hp, hA]] at hacc1
            by_cases hlt : l < t
            · rw [if_pos hlt] at hacc1
              injection hacc1 with h1
              exact Or.inr ⟨e, List.mem_cons_self e log, by rw [hp, h1]⟩
            · rw [if_neg hlt] at hacc1
              exact Or.inl hacc1
      · exact Or.inr ⟨e1, List.mem_cons_of_mem e he1, hp1⟩

/-- The latest-entry fold returns the maximum defined playback time. -/
theorem maxEntryTime_spec (log : List Entry) (m : ℚ)
    (h : maxEntryTime log = some m) :
    (∀ e ∈ log, ∀ t, e.playback_time_seconds = some t → t ≤ m) ∧
      ∃ e ∈ log, e.playback_time_seconds = some m := by
  obtain ⟨hall, hor, _⟩ := maxEntryTime_fold log none m h
  rcases hor with hnone | hex
  · cases hnone
  · exact ⟨hall, hex⟩

/-- Counterexample for C2 as stated: on an empty log, `startRecap` rewinds
and pauses but does not enter the `Rewinding` state. -/
theorem startRecap_empty_log_counterexample :
    exampleState.masterLog = [] ∧
    (startRecap 10 0 exampleState).videoCurrentTime = 10 ∧
    (startRecap 10 0 exampleState).videoPaused = true ∧
    ¬ ((startRecap 10 0 exampleState).isRewinding = true) := by
  refine ⟨rfl, ?_, rfl, by decide⟩
  show max 0 ((20 : ℚ) - 10) = 10
  rw [show (20 : ℚ) - 10 = 10 by norm_num, max_eq_right (by norm_num)]

/-- C2 (amended): with a non-empty log whose latest defined entry time is
nonzero, `startRecap` stores that maximum as the recap end time, seeks to
`max 0 (currentTime - rewindOffset)`, pauses (recap playback starts on
SPACE) and enters `Rewinding`; with an empty log it performs the fixed
rewind to `max 0 (currentTime - rewindOffset)` and pauses there, but does
not enter `Rewinding` and leaves the stored end time unchanged. -/
theorem startRecap_spec (r : ℚ) (now : ℕ) (s : SessionState) :
    (s.masterLog = [] →
      startRecap r now s =
        { s with videoCurrentTime := max 0 (s.videoCurrentTime - r),
                 videoPaused := true }) ∧
    (∀ m : ℚ, maxEntryTime s.masterLog = some m → m ≠ 0 →
      (startRecap r now s).recapEndTime = some m ∧
      (∀ e ∈ s.masterLog, ∀ t, e.playback_time_seconds = some t → t ≤ m) ∧
      (∃ e ∈ s.masterLog, e.playback_time_seconds = some m) ∧
      (startRecap r now s).videoCurrentTime = max 0 (s.videoCurrentTime - r) ∧
      (startRecap r now s).isRewinding = true ∧
      (startRecap r now s).videoPaused = true ∧
      (startRecap r now s).recapCompleted = false) := by
  constructor
  · intro hempty
    unfold startRecap
    rw [if_pos (by rw [hempty]; rfl)]
  · intro m hmax hm0
    have hne : ¬ s.masterLog.isEmpty = true := by
      intro hempty
      rw [List.isEmpty_iff] at hempty
      rw [hempty] at hmax
      cases hmax
    obtain ⟨hall, hex⟩ := maxEntryTime_spec s.masterLog m hmax
    unfold startRecap
    rw [if_neg hne, hmax]
    dsimp only
    rw [if_neg hm0]
    exact ⟨rfl, hall, hex, rfl, rfl, rfl, rfl⟩

/-- Concrete state for the C2 witness: log entries at times 5 and 30,
playback at 40 (spec scenario 3). -/
def wStartState : SessionState :=
  { exampleState with
    masterLog := [exampleEntry "a" 5, exampleEntry "b" 30]
    videoCurrentTime := 40 }

/-- Witness for C2 on scenario 3: recap started at `t = 40` with a 60 s
offset on entries at 5 and 30. -/
theorem startRecap_spec_witness :
    (wStartState.masterLog = [] →
      startRecap 60 0 wStartState =
        { wStartState with
          videoCurrentTime := max 0 (wStartState.videoCurrentTime - 60),
          videoPaused := true }) ∧
    ((startRecap 60 0 wStartState).recapEndTime = some 30 ∧
      (∀ e ∈ wStartState.masterLog, ∀ t, e.playback_time_seconds = some t → t ≤ 30) ∧
      (∃ e ∈ wStartState.masterLog, e.playback_time_seconds = some (30 : ℚ)) ∧
      (startRecap 60 0 wStartState).videoCurrentTime =
        max 0 (wStartState.videoCurrentTime - 60) ∧
      (startRecap 60 0 wStartState).isRewinding = true ∧
      (startRecap 60 0 wStartState).videoPaused = true ∧
      (startRecap 60 0 wStartState).recapCompleted = false) :=
  ⟨(startRecap_spec 60 0 wStartState).1,
    (startRecap_spec 60 0 wStartState).2 30
      (by norm_num [maxEntryTime, maxStep, wStartState, exampleState, exampleEntry])
      (by norm_num)⟩

/-! ## Audit export (claim C4) -/

/-- C4: in audit mode, the exported entries are exactly
`(originalEntries ∪ newEntries) ∖ deletedEntryIds` — each exported entry
is one of the original objects (so its own step values are preserved) —
with no duplicate ids (given the log's id-uniqueness invariant) and no
exported entry whose id is in `deletedEntryIds`. -/
theorem audit_export_spec (s : SessionState)
    (hmode : s.mode = "audit")
    (hno : (s.originalEntries.map Entry.entryId).Nodup)
    (hnn : (s.newEntries.map Entry.entryId).Nodup)
    (hdisj : ∀ id ∈ s.originalEntries.map Entry.entryId,
       id ∉ s.newEntries.map Entry.entryId) :
    (∀ e : Entry, e ∈ entriesToExport s ↔
       ((e ∈ s.originalEntries ∨ e ∈ s.newEntries) ∧
         s.deletedEntryIds e.entryId = false)) ∧
    ((entriesToExport s).map Entry.entryId).Nodup ∧
    (∀ e ∈ entriesToExport s, ¬ s.deletedEntryIds e.entryId = true) := by
  have hexp : entriesToExport s =
      s.originalEntries.filter (fun e => ¬ s.deletedEntryIds e.entryId) ++
        s.newEntries.filter (fun e => ¬ s.deletedEntryIds e.entryId) := by
    unfold entriesToExport
    rw [if_pos hmode]
  have hmem : ∀ e : Entry, e ∈ entriesToExport s ↔
      ((e ∈ s.originalEntries ∨ e ∈ s.newEntries) ∧
        s.deletedEntryIds e.entryId = false) := by
    intro e
    rw [hexp]
    simp only [List.mem_append, List.mem_filter, decide_eq_true_eq,
      Bool.not_eq_true]
    tauto
  refine ⟨hmem, ?_, fun e he => by rw [(hmem e).mp he |>.2]; simp⟩
  rw [hexp, List.map_append]
  have hsub : ∀ (l : List Entry) (p : Entry → Bool),
      ((l.filter p).map Entry.entryId).Sublist (l.map Entry.entryId) :=
    fun l p => (List.filter_sublist l).map Entry.entryId
  apply List.Nodup.append
  · exact (hsub _ _).nodup hno
  · exact (hsub _ _).nodup hnn
  · intro id h1 h2
    exact hdisj id ((hsub _ _).mem h1) ((hsub _ _).mem h2)

/-- Audit-mode state of spec scenario 5: originals `X`, `Y`, new entry
`Z`, `X` marked deleted. -/
def wAuditState : SessionState :=
  { exampleState with
    mode := "audit"
    originalEntries := [exampleEntry "X" 1, exampleEntry "Y" 2]
    newEntries := [exampleEntry "Z" 3]
    masterLog := [exampleEntry "X" 1, exampleEntry "Y" 2, exampleEntry "Z" 3]
    deletedEntryIds := fun id => id == "X" }

/-- Witness for C4 on scenario 5. -/
theorem audit_export_spec_witness :
    (∀ e : Entry, e ∈ entriesToExport wAuditState ↔
       ((e ∈ wAuditState.originalEntries ∨ e ∈ wAuditState.newEntries) ∧
         wAuditState.deletedEntryIds e.entryId = false)) ∧
    ((entriesToExport wAuditState).map Entry.entryId).Nodup ∧
    (∀ e ∈ entriesToExport wAuditState,
       ¬ wAuditState.deletedEntryIds e.entryId = true) :=
  audit_export_spec wAuditState rfl (by decide) (by decide) (by decide)

/-! ## Indicator exclusivity (claim C9) -/

theorem rewindScanBody_preserves (ct : ℚ) (now : ℕ) (dots : Dots)
    (eid : String) (t : ℚ) (id : String) (d : DotInfo)
    (hd : dots id = some d)
    (hph : d.phase = "waiting" ∨ d.phase = "finalized" ∨ d.phase = "undo") :
    rewindScanBody ct now dots eid t id = some d := by
  have hnotrw : d.phase ≠ "rewind" := by
    rcases hph with h | h | h <;> rw [h] <;> decide
  have hprot : ¬ (d.phase ≠ "waiting" ∧ d.phase ≠ "finalized" ∧ d.phase ≠ "undo") := by
    rcases hph with h | h | h
    · exact fun hc => hc.1 h
    · exact fun hc => hc.2.1 h
    · exact fun hc => hc.2.2 h
  have hset : ∀ X, dots eid = none → setDot dots eid X id = some d := by
    intro X hnone
    unfold setDot
    by_cases h : id = eid
    · rw [h] at hd
      rw [hd] at hnone
      cases hnone
    · rw [if_neg h]
      exact hd
  unfold rewindScanBody
  split_ifs with h1 h2
  · cases hde : dots eid with
    | none => exact hset _ hde
    | some d1 =>
      dsimp only
      by_cases h : id = eid
      · rw [h] at hd
        rw [hd] at hde
        injection hde with hde
        subst hde
        rw [if_neg hprot]
        rw [← h] at hd
        exact hd
      · split_ifs with h3 h4
        · unfold setDot
          rw [if_neg h]
          exact hd
        · unfold setDot
          rw [if_neg h]
          exact hd
        · exact hd
  · cases hde : dots eid with
    | none => exact hset _ hde
    | some d1 => exact hd
  · cases hde : dots eid with
    | none => exact hd
    | some d1 =>
      dsimp only
      by_cases h : id = eid
      · rw [h] at hd
        rw [hd] at hde
        injection hde with hde
        subst hde
        rw [if_neg hnotrw]
        rw [← h] at hd
        exact hd
      · split_ifs with h3
        · unfold delDot
          rw [if_neg h]
          exact hd
        · exact hd

theorem rewindScanStep_preserves (ct : ℚ) (re : Option ℚ) (now : ℕ)
    (dots : Dots) (e : Entry) (id : String) (d : DotInfo)
    (hd : dots id = some d)
    (hph : d.phase = "waiting" ∨ d.phase = "finalized" ∨ d.phase = "undo") :
    rewindScanStep ct re now dots e id = some d := by
  have hnotrw : d.phase ≠ "rewind" := by
    rcases hph with h | h | h <;> rw [h] <;> decide
  unfold rewindScanStep
  cases hp : e.playback_time_seconds with
  | none => exact hd
  | some t =>
    cases re with
    | none => exact rewindScanBody_preserves ct now dots e.entryId t id d hd hph
    | some m =>
      dsimp only
      split_ifs with h1
      · cases hde : dots e.entryId with
        | none => exact hd
        | some d1 =>
          dsimp only
          by_cases h : id = e.entryId
          · rw [h] at hd
            rw [hd] at hde
            injection hde with hde
            subst hde
            rw [if_neg hnotrw]
            rw [← h] at hd
            exact hd
          · split_ifs with h3
            · unfold delDot
              rw [if_neg h]
              exact hd
            · exact hd
      · exact rewindScanBody_preserves ct now dots e.entryId t id d hd hph

theorem rewindScan_foldl_preserves (ct : ℚ) (re : Option ℚ) (now : ℕ)
    (id : String) (d : DotInfo)
    (hph : d.phase = "waiting" ∨ d.phase = "finalized" ∨ d.phase = "undo") :
    ∀ (log : List Entry) (dots : Dots), dots id = some d →
      (log.foldl (rewindScanStep ct re now) dots) id = some d := by
  intro log
  induction log with
  | nil => intro dots hd; exact hd
  | cons e log ih =>
    intro dots hd
    rw [List.foldl_cons]
    exact ih _ (rewindScanStep_preserves ct re now dots e id d hd hph)

theorem preAddRecapDots_preserves (now : ℕ) (a b : ℚ) (id : String) (d : DotInfo) :
    ∀ (log : List Entry) (dots : Dots), dots id = some d →
      preAddRecapDots now a b log dots id = some d := by
  intro log
  induction log with
  | nil => intro dots hd; exact hd
  | cons e log ih =>
    intro dots hd
    unfold preAddRecapDots at ih ⊢
    rw [List.foldl_cons]
    apply ih
    cases hp : e.playback_time_seconds with
    | none => exact hd
    | some t =>
      dsimp only
      split_ifs with h1
      · cases hde : dots e.entryId with
        | none =>
          dsimp only
          unfold setDot
          by_cases h : id = e.entryId
          · rw [h] at hd
            rw [hd] at hde
            cases hde
          · show (if id = e.entryId then _ else dots id) = some d
            rw [if_neg h]
            exact hd
        | some d1 => exact hd
      · exact hd

/-- C9: the `activeDots` map holds at most one indicator record per entry
id, and an existing `waiting`, `finalized` or `undo` record is never
overwritten (or removed) by the review-axis (`rewind`-phase) logic: both
the rewind section of a `drawRedDots` scheduler tick and the `startRecap`
pre-scan leave it exactly as it was. -/
theorem indicator_exclusivity (s : SessionState) (ct r : ℚ) (now now2 : ℕ)
    (id : String) (d : DotInfo)
    (hd : s.activeDots id = some d)
    (hph : d.phase = "waiting" ∨ d.phase = "finalized" ∨ d.phase = "undo") :
    (∀ d1 d2 : DotInfo, s.activeDots id = some d1 → s.activeDots id = some d2 →
       d1 = d2) ∧
    drawRedDotsRewindScan ct now s id = some d ∧
    (startRecap r now2 s).activeDots id = some d := by
  refine ⟨fun d1 d2 h1 h2 => by rw [h1] at h2; injection h2, ?_, ?_⟩
  · unfold drawRedDotsRewindScan
    split_ifs with h1
    · exact rewindScan_foldl_preserves ct s.recapEndTime now id d hph
        s.masterLog s.activeDots hd
    · exact hd
  · unfold startRecap
    split_ifs with h1
    · exact hd
    · cases hm : maxEntryTime s.masterLog with
      | none => exact hd
      | some m =>
        dsimp only
        split_ifs with h2
        · exact hd
        · exact preAddRecapDots_preserves now2 _ _ id d s.masterLog s.activeDots hd

/-- State for the C9 witness: a `waiting` dot for entry `w` inside an
active recap window, log entries at 10 and 20. -/
def wDotState : SessionState :=
  { exampleState with
    isRewinding := true
    recapEndTime := some 30
    masterLog := [exampleEntry "w" 10, exampleEntry "x" 20]
    activeDots := fun i =>
      if i = "w" then some ⟨"green", 5, "waiting", none⟩ else none }

/-- Witness for C9: the `waiting` dot of entry `w` survives a scheduler
tick at playback time 9 and a recap pre-scan. -/
theorem indicator_exclusivity_witness :
    (∀ d1 d2 : DotInfo, wDotState.activeDots "w" = some d1 →
       wDotState.activeDots "w" = some d2 → d1 = d2) ∧
    drawRedDotsRewindScan 9 7 wDotState "w" = some ⟨"green", 5, "waiting", none⟩ ∧
    (startRecap 10 7 wDotState).activeDots "w" = some ⟨"green", 5, "waiting", none⟩ :=
  indicator_exclusivity wDotState 9 10 7 7 "w" ⟨"green", 5, "waiting", none⟩
    (by simp [wDotState, exampleState]) (Or.inl rfl)

/-! ## Video-click handler (claim C7) -/

/-- A session state with an open draft and clicks enabled. -/
def wOpenDraftState : SessionState :=
  { exampleState with currentEntry := some (exampleEntry "e0" 3) }

/-- Counterexample for C7 as stated: `handleVideoClick` has no
open-draft guard.  With a draft open and clicks enabled, a further click
replaces the open draft with a fresh entry shell and adds a new `waiting`
indicator. -/
theorem handleVideoClick_open_draft_counterexample :
    wOpenDraftState.currentEntry = some (exampleEntry "e0" 3) ∧
    wOpenDraftState.spacePressed = true ∧
    (handleVideoClick 5 true 1 2 wOpenDraftState).currentEntry.map Entry.entryId ≠
      some "e0" ∧
    ((handleVideoClick 5 true 1 2 wOpenDraftState).activeDots "entry_5_0").isSome
      = true := by
  refine ⟨rfl, rfl, ?_, ?_⟩
  · show some "entry_5_0" ≠ some "e0"
    decide
  · show (setDot (clearUndoDots wOpenDraftState.activeDots) "entry_5_0"
      ⟨"green", 5, "waiting", none⟩ "entry_5_0").isSome = true
    unfold setDot
    rw [if_pos rfl]
    rfl

/-- C7 (amended): the video-click handler is a silent no-op exactly when
clicks are disabled (space not pressed and no active recap window); when
clicks are enabled and the coordinates are valid, a click replaces
whatever draft is open with a fresh entry shell at the current playback
position, adds a new `waiting` indicator for it, and bumps the entry
counter — it does not guard against an already-open draft. -/
theorem handleVideoClick_spec (now : ℕ) (cv : Bool) (nx ny : ℚ) (s : SessionState) :
    (¬ (s.spacePressed = true ∨ (s.isRewinding = true ∧ s.recapEndTime ≠ none)) →
       handleVideoClick now cv nx ny s = s) ∧
    ((s.spacePressed = true ∨ (s.isRewinding = true ∧ s.recapEndTime ≠ none)) →
       cv = true →
       (handleVideoClick now cv nx ny s).currentEntry =
         some ⟨mkEntryId now s.entryCounter, some s.videoCurrentTime, "",
           nx, ny, emptyVals⟩ ∧
       (handleVideoClick now cv nx ny s).activeDots (mkEntryId now s.entryCounter) =
         some ⟨"green", now, "waiting", none⟩ ∧
       (handleVideoClick now cv nx ny s).entryCounter = s.entryCounter + 1) := by
  constructor
  · intro hng
    unfold handleVideoClick
    rw [if_pos hng]
  · intro hg hcv
    unfold handleVideoClick
    rw [if_neg (fun hn => hn hg)]
    dsimp only
    rw [if_neg (fun hn => hn hcv)]
    refine ⟨rfl, ?_, rfl⟩
    show setDot (clearUndoDots s.activeDots) (mkEntryId now s.entryCounter)
      ⟨"green", now, "waiting", none⟩ (mkEntryId now s.entryCounter) =
      some ⟨"green", now, "waiting", none⟩
    unfold setDot
    rw [if_pos rfl]

/-- Witness for C7 (amended) at the concrete open-draft state. -/
theorem handleVideoClick_spec_witness :
    (handleVideoClick 5 true 1 2 wOpenDraftState).currentEntry =
      some ⟨mkEntryId 5 wOpenDraftState.entryCounter,
        some wOpenDraftState.videoCurrentTime, "", 1, 2, emptyVals⟩ ∧
    (handleVideoClick 5 true 1 2 wOpenDraftState).activeDots
        (mkEntryId 5 wOpenDraftState.entryCounter) =
      some ⟨"green", 5, "waiting", none⟩ ∧
    (handleVideoClick 5 true 1 2 wOpenDraftState).entryCounter =
      wOpenDraftState.entryCounter + 1 :=
  (handleVideoClick_spec 5 true 1 2 wOpenDraftState).2 (Or.inl rfl) rfl

/-! ## State-invariant violations (claim C8) -/

/-- A state with an empty undo stack but a non-empty annotation log
(reachable e.g. after loading a session or starting an audit over
pre-existing entries). -/
def wFallbackState : SessionState :=
  { exampleState with masterLog := [exampleEntry "a" 5] }

/-- Counterexample for C8 as stated: `undoLastEntry` on an empty undo
stack is not a no-op when the log is non-empty — the legacy fallback pops
the last log entry. -/
theorem undo_empty_stack_counterexample :
    wFallbackState.undoStack = [] ∧
    (undoLastEntry 0 wFallbackState).masterLog ≠ wFallbackState.masterLog := by
  refine ⟨rfl, ?_⟩
  show ([] : List Entry) ≠ [exampleEntry "a" 5]
  exact fun h => (List.cons_ne_nil _ _) h.symm

/-- C8 (amended): `finalizeEntry` with no open draft is a no-op, and
`undoLastEntry` with an empty undo stack is a no-op (with a warning toast)
only when the annotation log is also empty; when the log is non-empty the
legacy fallback removes the log's last entry, leaving both history
stacks, the new-entry list and the deleted-id set untouched.  Neither
call throws. -/
theorem invariant_violation_noop_spec (now : ℕ) (s : SessionState) :
    (s.currentEntry = none → finalizeEntry now s = s) ∧
    (s.undoStack = [] → s.masterLog = [] → undoLastEntry now s = s) ∧
    (s.undoStack = [] → ∀ (e : Entry) (rest : List Entry),
       s.masterLog = rest ++ [e] →
       (undoLastEntry now s).masterLog = rest ∧
       (undoLastEntry now s).undoStack = [] ∧
       (undoLastEntry now s).redoStack = s.redoStack ∧
       (undoLastEntry now s).newEntries = s.newEntries ∧
       (undoLastEntry now s).deletedEntryIds = s.deletedEntryIds) := by
  refine ⟨?_, ?_, ?_⟩
  · intro h
    unfold finalizeEntry
    rw [h]
  · intro hu hm
    unfold undoLastEntry
    rw [hu, hm]
    rfl
  · intro hu e rest hm
    unfold undoLastEntry
    rw [hu, hm]
    dsimp only
    rw [List.getLast?_concat, List.dropLast_concat]
    dsimp only
    cases hp : e.playback_time_seconds with
    | none => exact ⟨rfl, rfl, rfl, rfl, rfl⟩
    | some p => exact ⟨rfl, rfl, rfl, rfl, rfl⟩

/-- Witness for C8 (amended): commit with no draft and undo on the empty
session are no-ops; undo with empty stack on a one-entry log empties the
log. -/
theorem invariant_violation_noop_spec_witness :
    finalizeEntry 0 exampleState = exampleState ∧
    undoLastEntry 0 exampleState = exampleState ∧
    (undoLastEntry 0 wFallbackState).masterLog = [] :=
  ⟨(invariant_violation_noop_spec 0 exampleState).1 rfl,
   (invariant_violation_noop_spec 0 exampleState).2.1 rfl rfl,
   ((invariant_violation_noop_spec 0 wFallbackState).2.2 rfl (exampleEntry "a" 5)
      [] rfl).1⟩

/-! ## Undo/redo inverse law (claim C1) -/

theorem undoLastEntry_core (now : ℕ) (s : SessionState) (U : List Snapshot)
    (u0 : Snapshot) (h : s.undoStack = U ++ [u0]) :
    (undoLastEntry now s).masterLog = u0.masterLog ∧
    (undoLastEntry now s).newEntries = u0.newEntries ∧
    (undoLastEntry now s).deletedEntryIds = u0.deletedEntryIds ∧
    (undoLastEntry now s).undoStack = U ∧
    (undoLastEntry now s).redoStack = s.redoStack ++ [snapshotOf s] := by
  unfold undoLastEntry
  rw [h, List.getLast?_concat]
  dsimp only
  rw [List.dropLast_concat]
  split
  · split
    · exact ⟨rfl, rfl, rfl, rfl, rfl⟩
    · exact ⟨rfl, rfl, rfl, rfl, rfl⟩
  · exact ⟨rfl, rfl, rfl, rfl, rfl⟩

theorem redoLastEntry_core (s : SessionState) (R : List Snapshot)
    (r0 : Snapshot) (h : s.redoStack = R ++ [r0]) :
    (redoLastEntry s).masterLog = r0.masterLog ∧
    (redoLastEntry s).newEntries = r0.newEntries ∧
    (redoLastEntry s).deletedEntryIds = r0.deletedEntryIds ∧
    (redoLastEntry s).undoStack = s.undoStack ++ [snapshotOf s] ∧
    (redoLastEntry s).redoStack = R := by
  unfold redoLastEntry
  rw [h, List.getLast?_concat]
  dsimp only
  rw [List.dropLast_concat]
  split
  · split
    · exact ⟨rfl, rfl, rfl, rfl, rfl⟩
    · exact ⟨rfl, rfl, rfl, rfl, rfl⟩
  · exact ⟨rfl, rfl, rfl, rfl, rfl⟩

/-- `undo()` then `redo()` restores the log, the new-entry list, the
deleted-id set and both history stacks whenever the undo stack is
non-empty. -/
theorem undo_redo_round_trip (now : ℕ) (s : SessionState)
    (hne : s.undoStack ≠ []) :
    (redoLastEntry (undoLastEntry now s)).masterLog = s.masterLog ∧
    (redoLastEntry (undoLastEntry now s)).newEntries = s.newEntries ∧
    (redoLastEntry (undoLastEntry now s)).deletedEntryIds = s.deletedEntryIds ∧
    (redoLastEntry (undoLastEntry now s)).undoStack = s.undoStack ∧
    (redoLastEntry (undoLastEntry now s)).redoStack = s.redoStack := by
  rcases List.eq_nil_or_concat s.undoStack with hnil | ⟨U, u0, hU⟩
  · exact absurd hnil hne
  · rw [List.concat_eq_append] at hU
    obtain ⟨hm, hn, hd, hu, hr⟩ := undoLastEntry_core now s U u0 hU
    have hsnap : snapshotOf (undoLastEntry now s) = u0 := by
      unfold snapshotOf
      rw [hm, hn, hd]
    obtain ⟨hm2, hn2, hd2, hu2, hr2⟩ :=
      redoLastEntry_core (undoLastEntry now s) s.redoStack (snapshotOf s) hr
    refine ⟨hm2, hn2, hd2, ?_, hr2⟩
    rw [hu2, hu, hsnap, hU]

theorem finalizeEntry_stacks (now : ℕ) (s : SessionState) (draft : Entry)
    (h : s.currentEntry = some draft) :
    (finalizeEntry now s).undoStack = (saveStateSnapshot s).undoStack ∧
    (finalizeEntry now s).redoStack = [] := by
  unfold finalizeEntry
  rw [h]
  dsimp only
  split <;> first | exact ⟨rfl, rfl⟩ | (split <;> exact ⟨rfl, rfl⟩)

theorem saveStateSnapshot_undoStack_ne_nil (s : SessionState) :
    (saveStateSnapshot s).undoStack ≠ [] := by
  unfold saveStateSnapshot
  dsimp only
  split_ifs with h
  · intro hnil
    have hlen := congrArg List.length hnil
    rw [List.length_drop, List.length_append] at hlen
    rw [List.length_append] at h
    unfold maxUndoHistory at h
    simp only [List.length_cons, List.length_nil] at hlen h
    omega
  · intro hnil
    have hlen := congrArg List.length hnil
    rw [List.length_append] at hlen
    simp only [List.length_cons, List.length_nil] at hlen
    omega

/-- Commits of the claim: a sequence of drafts, each opened and
finalized. -/
def commitSeq (now : ℕ) (ds : List Entry) (s : SessionState) : SessionState :=
  ds.foldl (fun s d => commit now d s) s

/-- C1: after any non-empty sequence of commits, `undo()` then `redo()`
restores the annotation log, the new-entry list and the deleted-id set
(and both history stacks) to states structurally equal to those before the
undo; and a fresh commit clears the redo stack, so a `redo()` performed
immediately after a commit changes no state. -/
theorem undo_redo_inverse_law (now : ℕ) (s0 : SessionState) (ds : List Entry)
    (hne : ds ≠ []) :
    ((redoLastEntry (undoLastEntry now (commitSeq now ds s0))).masterLog =
       (commitSeq now ds s0).masterLog ∧
     (redoLastEntry (undoLastEntry now (commitSeq now ds s0))).newEntries =
       (commitSeq now ds s0).newEntries ∧
     (redoLastEntry (undoLastEntry now (commitSeq now ds s0))).deletedEntryIds =
       (commitSeq now ds s0).deletedEntryIds ∧
     (redoLastEntry (undoLastEntry now (commitSeq now ds s0))).undoStack =
       (commitSeq now ds s0).undoStack ∧
     (redoLastEntry (undoLastEntry now (commitSeq now ds s0))).redoStack =
       (commitSeq now ds s0).redoStack) ∧
    (commitSeq now ds s0).redoStack = [] ∧
    redoLastEntry (commitSeq now ds s0) = commitSeq now ds s0 := by
  rcases List.eq_nil_or_concat ds with hnil | ⟨ds1, d, hds⟩
  · exact absurd hnil hne
  · rw [List.concat_eq_append] at hds
    have hseq : commitSeq now ds s0 = commit now d (commitSeq now ds1 s0) := by
      rw [hds]
      unfold commitSeq
      rw [List.foldl_append, List.foldl_cons, List.foldl_nil]
    have hstacks := finalizeEntry_stacks now
      { commitSeq now ds1 s0 with currentEntry := some d } d rfl
    have hundo : (commitSeq now ds s0).undoStack ≠ [] := by
      rw [hseq]
      unfold commit
      rw [hstacks.1]
      exact saveStateSnapshot_undoStack_ne_nil _
    have hredo : (commitSeq now ds s0).redoStack = [] := by
      rw [hseq]
      unfold commit
      exact hstacks.2
    refine ⟨undo_redo_round_trip now _ hundo, hredo, ?_⟩
    unfold redoLastEntry
    rw [hredo]
    rfl

/-- Witness for C1: one commit from the fresh session state. -/
theorem undo_redo_inverse_law_witness :
    ((redoLastEntry (undoLastEntry 0 (commitSeq 0 [exampleEntry "e1" 2] exampleState))).masterLog =
       (commitSeq 0 [exampleEntry "e1" 2] exampleState).masterLog ∧
     (redoLastEntry (undoLastEntry 0 (commitSeq 0 [exampleEntry "e1" 2] exampleState))).newEntries =
       (commitSeq 0 [exampleEntry "e1" 2] exampleState).newEntries ∧
     (redoLastEntry (undoLastEntry 0 (commitSeq 0 [exampleEntry "e1" 2] exampleState))).deletedEntryIds =
       (commitSeq 0 [exampleEntry "e1" 2] exampleState).deletedEntryIds ∧
     (redoLastEntry (undoLastEntry 0 (commitSeq 0 [exampleEntry "e1" 2] exampleState))).undoStack =
       (commitSeq 0 [exampleEntry "e1" 2] exampleState).undoStack ∧
     (redoLastEntry (undoLastEntry 0 (commitSeq 0 [exampleEntry "e1" 2] exampleState))).redoStack =
       (commitSeq 0 [exampleEntry "e1" 2] exampleState).redoStack) ∧
    (commitSeq 0 [exampleEntry "e1" 2] exampleState).redoStack = [] ∧
    redoLastEntry (commitSeq 0 [exampleEntry "e1" 2] exampleState) =
      commitSeq 0 [exampleEntry "e1" 2] exampleState :=
  undo_redo_inverse_law 0 exampleState [exampleEntry "e1" 2]
    (List.cons_ne_nil _ _)

/-! ## Round-trip navigation (claim C6) -/

/-- Well-formed config per the spec's data model: distinct step ids, and
every condition references a step with strictly smaller index. -/
structure WFConfig (steps : List Step) : Prop where
  nodup : (steps.map Step.step_id).Nodup
  refs : ∀ (i : ℕ) (hi : i < steps.length) (c : Cond),
    (steps.get ⟨i, hi⟩).condition = some c →
    ∃ j, j < i ∧ ∃ hj : j < steps.length, c.ref = (steps.get ⟨j, hj⟩).step_id

theorem stepIdAt_lt (steps : List Step) {j : ℕ} (hj : j < steps.length) :
    stepIdAt steps j = (steps.get ⟨j, hj⟩).step_id := by
  unfold stepIdAt
  rw [List.getElem?_eq_getElem hj]
  rfl

theorem stepIdAt_injOn (steps : List Step) (hnodup : (steps.map Step.step_id).Nodup)
    {j m : ℕ} (hj : j < steps.length) (hm : m < steps.length) (hne : j ≠ m) :
    stepIdAt steps j ≠ stepIdAt steps m := by
  rw [stepIdAt_lt steps hj, stepIdAt_lt steps hm]
  intro heq
  apply hne
  have hj2 : j < (steps.map Step.step_id).length := by
    rw [List.length_map]; exact hj
  have hm2 : m < (steps.map Step.step_id).length := by
    rw [List.length_map]; exact hm
  have hinj : (steps.map Step.step_id)[j] = (steps.map Step.step_id)[m] → j = m :=
    fun hh => (List.Nodup.getElem_inj_iff hnodup).mp hh
  apply hinj
  rw [List.getElem_map, List.getElem_map]
  exact heq

/-- Condition evaluation at index `i` only reads the values of steps with
smaller index: two drafts that agree on those ids evaluate alike. -/
theorem evalAt_congr (steps : List Step) (hwf : WFConfig steps) (i : ℕ)
    (v1 v2 : Vals)
    (hagree : ∀ j, j < i → j < steps.length →
      v1 (stepIdAt steps j) = v2 (stepIdAt steps j)) :
    evalAt steps (some v1) i = evalAt steps (some v2) i := by
  unfold evalAt
  cases hst : steps[i]? with
  | none => rfl
  | some st =>
    dsimp only
    have hi : i < steps.length := by
      by_contra hge
      rw [List.getElem?_eq_none (by omega)] at hst
      cases hst
    have hget : steps.get ⟨i, hi⟩ = st := by
      rw [List.getElem?_eq_getElem hi] at hst
      injection hst
    unfold evaluateStepCondition
    cases hc : st.condition with
    | none => rfl
    | some c =>
      dsimp only
      obtain ⟨j, hji, hj, href⟩ := hwf.refs i hi c (by rw [hget, hc])
      have hv : v1 c.ref = v2 c.ref := by
        rw [href, ← stepIdAt_lt steps hj]
        exact hagree j hji hj
      rw [hv]

/-- Setting the value of a step at index `m ≥ i` does not change the
qualification of a step at index `i`. -/
theorem evalAt_setVal_high (steps : List Step) (hwf : WFConfig steps)
    {i m : ℕ} (him : i ≤ m) (hm : m < steps.length) (v : Vals) (x : String) :
    evalAt steps (some (setVal v (stepIdAt steps m) x)) i =
      evalAt steps (some v) i := by
  apply evalAt_congr steps hwf
  intro j hji hj
  unfold setVal
  rw [if_neg]
  exact stepIdAt_injOn steps hwf.nodup hj hm (by omega)

/-- Deleting the value of a step at index `m ≥ i` does not change the
qualification of a step at index `i`. -/
theorem evalAt_delVal_high (steps : List Step) (hwf : WFConfig steps)
    {i m : ℕ} (him : i ≤ m) (hm : m < steps.length) (v : Vals) :
    evalAt steps (some (delVal v (stepIdAt steps m))) i =
      evalAt steps (some v) i := by
  apply evalAt_congr steps hwf
  intro j hji hj
  unfold delVal
  rw [if_neg]
  exact stepIdAt_injOn steps hwf.nodup hj hm (by omega)

/-- The value map built by a history of answers `(index, value)`. -/
def applyHist (steps : List Step) (hist : List (ℕ × String)) : Vals :=
  hist.foldl (fun m p => setVal m (stepIdAt steps p.1) p.2) emptyVals

theorem applyHist_concat (steps : List Step) (hist : List (ℕ × String))
    (p : ℕ × String) :
    applyHist steps (hist ++ [p]) =
      setVal (applyHist steps hist) (stepIdAt steps p.1) p.2 := by
  unfold applyHist
  rw [List.foldl_append, List.foldl_cons, List.foldl_nil]

theorem applyHist_lookup_notin (steps : List Step) (hist : List (ℕ × String))
    (k : String) (hk : ∀ p ∈ hist, stepIdAt steps p.1 ≠ k) :
    applyHist steps hist k = none := by
  have key : ∀ (l : List (ℕ × String)) (m : Vals),
      (∀ p ∈ l, stepIdAt steps p.1 ≠ k) → m k = none →
      (l.foldl (fun m p => setVal m (stepIdAt steps p.1) p.2) m) k = none := by
    intro l
    induction l with
    | nil => intro m _ hm; exact hm
    | cons p l ih =>
      intro m hl hm
      rw [List.foldl_cons]
      apply ih
      · intro q hq
        exact hl q (List.mem_cons_of_mem p hq)
      · unfold setVal
        rw [if_neg]
        · exact hm
        · intro hkk
          exact hl p (List.mem_cons_self p l) (by rw [hkk])
  exact key hist emptyVals hk rfl

theorem applyHist_lookup_last (steps : List Step) (hist : List (ℕ × String))
    (p : ℕ × String) :
    applyHist steps (hist ++ [p]) (stepIdAt steps p.1) = some p.2 := by
  rw [applyHist_concat]
  unfold setVal
  rw [if_pos rfl]

theorem delVal_applyHist_concat (steps : List Step) (hist : List (ℕ × String))
    (p : ℕ × String) (hnotin : ∀ q ∈ hist, stepIdAt steps q.1 ≠ stepIdAt steps p.1) :
    delVal (applyHist steps (hist ++ [p])) (stepIdAt steps p.1) =
      applyHist steps hist := by
  funext x
  unfold delVal
  by_cases hx : x = stepIdAt steps p.1
  · rw [if_pos hx, hx]
    exact (applyHist_lookup_notin steps hist _ hnotin).symm
  · rw [if_neg hx, applyHist_concat]
    unfold setVal
    rw [if_neg hx]

/-- The purge loop leaves a draft unchanged when no step at or after `i`
has a (truthy) recorded value. -/
theorem purgeFrom_noop (steps : List Step) (vals : Vals) :
    ∀ i, (∀ j, i ≤ j → j < steps.length → isTruthy (vals (stepIdAt steps j)) = false) →
      purgeFrom steps vals i = vals := by
  have key : ∀ n i, steps.length - i ≤ n →
      (∀ j, i ≤ j → j < steps.length → isTruthy (vals (stepIdAt steps j)) = false) →
      purgeFrom steps vals i = vals := by
    intro n
    induction n with
    | zero =>
      intro i hle _
      unfold purgeFrom
      rw [dif_neg (by omega)]
    | succ n ih =>
      intro i hle hall
      by_cases hi : i < steps.length
      · have hidf : isTruthy (vals ((steps.get ⟨i, hi⟩).step_id)) = false := by
          rw [← stepIdAt_lt steps hi]
          exact hall i (le_refl i) hi
        unfold purgeFrom
        rw [dif_pos hi]
        dsimp only
        rw [if_neg (by rw [hidf]; simp)]
        exact ih (i + 1) (by omega) (fun j h1 h2 => hall j (by omega) h2)
      · unfold purgeFrom
        rw [dif_neg hi]
  intro i
  exact key steps.length i (by omega)

theorem findNextFrom_self (steps : List Step) (ce : Option Vals) {i : ℕ}
    (hi : i < steps.length) (hq : evalAt steps ce i = true) :
    findNextFrom steps ce i = (i : Int) :=
  findNextFrom_eq_of steps ce (le_refl i) hi hq (fun j h1 h2 => by omega)

/-- `showChoiceModal()` keeps the draft at a step that already
qualifies. -/
theorem showChoiceModalNav_self (steps : List Step) (vals : Vals) {i : ℕ}
    (hi : i < steps.length) (hq : evalAt steps (some vals) i = true) :
    showChoiceModalNav steps ⟨vals, i⟩ = .open ⟨vals, i⟩ := by
  unfold showChoiceModalNav
  rw [show findNextValidStepIndex steps (some vals) i = (i : Int) from
    findNextFrom_self steps (some vals) hi hq]
  rw [if_neg]
  · rw [Int.toNat_natCast]
  · rintro (h | h)
    · omega
    · have : (i : Int) < (steps.length : Int) := by exact_mod_cast hi
      omega

/-- Invariant of the forward (answering) phase: the draft's values are the
answers along a strictly increasing history of step indices, all before
the current step; the current step qualifies, every answered step still
qualifies, and every skipped index before the current step fails its
condition. -/
structure FInv (steps : List Step) (hist : List (ℕ × String))
    (d : DraftState) : Prop where
  vals : d.values = applyHist steps hist
  incr : hist.Pairwise (fun p q => p.1 < q.1)
  inrange : ∀ p ∈ hist, p.1 < steps.length
  truthy : ∀ p ∈ hist, p.2 ≠ ""
  lt_idx : ∀ p ∈ hist, p.1 < d.stepIndex
  idx_lt : d.stepIndex < steps.length
  idx_eval : evalAt steps (some d.values) d.stepIndex = true
  evals : ∀ p ∈ hist, evalAt steps (some d.values) p.1 = true
  gaps : ∀ j, j < d.stepIndex → (∀ p ∈ hist, p.1 ≠ j) →
    evalAt steps (some d.values) j = false

/-- Invariant of the backward phase: the values still hold the answers of
`h ++ [p]` and the draft sits at the last answered step `p.1`. -/
structure GInv (steps : List Step) (h : List (ℕ × String)) (p : ℕ × String)
    (d : DraftState) : Prop where
  vals : d.values = applyHist steps (h ++ [p])
  incr : (h ++ [p]).Pairwise (fun a b => a.1 < b.1)
  inrange : ∀ q ∈ h ++ [p], q.1 < steps.length
  truthy : ∀ q ∈ h ++ [p], q.2 ≠ ""
  idx : d.stepIndex = p.1
  evals : ∀ q ∈ h ++ [p], evalAt steps (some d.values) q.1 = true
  gaps : ∀ j, j < p.1 → (∀ q ∈ h ++ [p], q.1 ≠ j) →
    evalAt steps (some d.values) j = false

/-- Opening a draft lands on the first qualifying step with an empty
history. -/
theorem start_FInv (steps : List Step) (d0 : DraftState)
    (h : showChoiceModalNav steps ⟨emptyVals, 0⟩ = .open d0) :
    FInv steps [] d0 ∧ d0.values = emptyVals := by
  unfold showChoiceModalNav at h
  rcases findNextFrom_spec steps (some emptyVals) 0 with ⟨hm1, _⟩ |
      ⟨k, hk, _, hklen, hkq, hgap⟩
  · rw [show findNextValidStepIndex steps (some emptyVals) 0 = -1 from hm1] at h
    rw [if_pos (Or.inl rfl)] at h
    cases h
  · rw [show findNextValidStepIndex steps (some emptyVals) 0 = (k : Int) from hk] at h
    rw [if_neg] at h
    · rw [Int.toNat_natCast] at h
      injection h with h
      subst h
      refine ⟨⟨rfl, List.Pairwise.nil, ?_, ?_, ?_, hklen, hkq, ?_, ?_⟩, rfl⟩
      · intro p hp; cases hp
      · intro p hp; cases hp
      · intro p hp; cases hp
      · intro p hp; cases hp
      · intro j hj _
        exact hgap j (by omega) hj
    · rintro (hc | hc)
      · omega
      · have : (k : Int) < (steps.length : Int) := by exact_mod_cast hklen
        omega

/-- An answer that keeps the draft open appends to the history and moves
strictly forward, preserving the forward invariant. -/
theorem answer_step (steps : List Step) (hwf : WFConfig steps)
    (hist : List (ℕ × String)) (d d' : DraftState) (v : String)
    (hinv : FInv steps hist d) (hv : v ≠ "")
    (h : answer steps d v = .open d') :
    FInv steps (hist ++ [(d.stepIndex, v)]) d' ∧ d.stepIndex < d'.stepIndex := by
  unfold answer at h
  have hvals1 : setVal d.values (stepIdAt steps d.stepIndex) v =
      applyHist steps (hist ++ [(d.stepIndex, v)]) := by
    rw [applyHist_concat, hinv.vals]
  have hstable : ∀ j, j ≤ d.stepIndex →
      evalAt steps (some (setVal d.values (stepIdAt steps d.stepIndex) v)) j =
        evalAt steps (some d.values) j := by
    intro j hj
    exact evalAt_setVal_high steps hwf hj hinv.idx_lt d.values v
  rcases findNextFrom_spec steps
      (some (setVal d.values (stepIdAt steps d.stepIndex) v)) (d.stepIndex + 1)
    with ⟨hm1, _⟩ | ⟨k, hk, hik, hklen, hkq, hgap⟩
  · rw [show findNextValidStepIndex steps
        (some (setVal d.values (stepIdAt steps d.stepIndex) v))
        (d.stepIndex + 1) = -1 from hm1] at h
    rw [if_pos (Or.inl rfl)] at h
    cases h
  · rw [show findNextValidStepIndex steps
        (some (setVal d.values (stepIdAt steps d.stepIndex) v))
        (d.stepIndex + 1) = (k : Int) from hk] at h
    rw [if_neg] at h
    · rw [Int.toNat_natCast] at h
      rw [showChoiceModalNav_self steps _ hklen hkq] at h
      injection h with h
      subst h
      have hik2 : d.stepIndex < k := by omega
      refine ⟨⟨hvals1, ?_, ?_, ?_, ?_, hklen, hkq, ?_, ?_⟩, hik2⟩
      · rw [List.pairwise_append]
        refine ⟨hinv.incr, List.pairwise_singleton _ _, ?_⟩
        intro a ha b hb
        rw [List.mem_singleton] at hb
        subst hb
        exact hinv.lt_idx a ha
      · intro p hp
        rcases List.mem_append.mp hp with hp | hp
        · exact hinv.inrange p hp
        · rw [List.mem_singleton] at hp
          subst hp
          exact hinv.idx_lt
      · intro p hp
        rcases List.mem_append.mp hp with hp | hp
        · exact hinv.truthy p hp
        · rw [List.mem_singleton] at hp
          subst hp
          exact hv
      · intro p hp
        rcases List.mem_append.mp hp with hp | hp
        · exact lt_trans (hinv.lt_idx p hp) hik2
        · rw [List.mem_singleton] at hp
          subst hp
          exact hik2
      · intro p hp
        rcases List.mem_append.mp hp with hp | hp
        · rw [hstable p.1 (le_of_lt (hinv.lt_idx p hp))]
          exact hinv.evals p hp
        · rw [List.mem_singleton] at hp
          subst hp
          rw [hstable d.stepIndex (le_refl _)]
          exact hinv.idx_eval
      · intro j hj hnotin
        rcases Nat.lt_trichotomy j d.stepIndex with hlt | rfl | hgt
        · rw [hstable j (le_of_lt hlt)]
          exact hinv.gaps j hlt (fun p hp => hnotin p (List.mem_append_left _ hp))
        · exact absurd rfl
            (hnotin (d.stepIndex, v)
              (List.mem_append_right _ (List.mem_singleton_self _)))
        · exact hgap j (by omega) hj
    · rintro (hc | hc)
      · omega
      · have : (k : Int) < (steps.length : Int) := by exact_mod_cast hklen
        omega

/-- A forward trace of answers extends the history by one entry per
answer, the first at the starting step. -/
theorem trace_FInv (steps : List Step) (hwf : WFConfig steps) :
    ∀ (vs : List String) (d d' : DraftState) (hist : List (ℕ × String)),
      ForwardTrace steps d vs d' → FInv steps hist d → (∀ v ∈ vs, v ≠ "") →
      ∃ ext : List (ℕ × String),
        FInv steps (hist ++ ext) d' ∧ ext.length = vs.length ∧
        ext.head? = vs.head?.map (fun v => (d.stepIndex, v)) := by
  intro vs
  induction vs with
  | nil =>
    intro d d' hist htr hinv hne
    cases htr
    exact ⟨[], by simpa using hinv, rfl, rfl⟩
  | cons v vs ih =>
    intro d d' hist htr hinv hvs
    rcases htr with _ | @⟨_, d1, _, _, _, hans, htr2⟩
    obtain ⟨hinv1, hlt⟩ := answer_step steps hwf hist d d1 v hinv
      (hvs v (List.mem_cons_self v vs)) hans
    obtain ⟨ext, hinv2, hlen, hhead⟩ := ih d1 d' (hist ++ [(d.stepIndex, v)])
      htr2 hinv1 (fun w hw => hvs w (List.mem_cons_of_mem v hw))
    refine ⟨(d.stepIndex, v) :: ext, ?_, ?_, ?_⟩
    · rw [List.append_cons]
      exact hinv2
    · simp [hlen]
    · simp

/-- The first `goBack` from the post-answer position returns to the last
answered step without touching the values. -/
theorem goBack_from_F (steps : List Step) (hwf : WFConfig steps)
    (h : List (ℕ × String)) (p : ℕ × String) (d : DraftState)
    (hinv : FInv steps (h ++ [p]) d) :
    goBack steps d = .stay ⟨d.values, p.1⟩ ∧ GInv steps h p ⟨d.values, p.1⟩ := by
  have hpmem : p ∈ h ++ [p] :=
    List.mem_append_right _ (List.mem_singleton_self _)
  have hplt : p.1 < d.stepIndex := hinv.lt_idx p hpmem
  have hplen : p.1 < steps.length := hinv.inrange p hpmem
  have hidx0 : ¬ d.stepIndex = 0 := by omega
  have hall_le : ∀ q ∈ h ++ [p], q.1 ≤ p.1 := by
    have hpw := hinv.incr
    rw [List.pairwise_append] at hpw
    intro q hq
    rcases List.mem_append.mp hq with hq | hq
    · exact le_of_lt (hpw.2.2 q hq p (List.mem_singleton_self _))
    · rw [List.mem_singleton] at hq
      subst hq
      exact le_refl _
  have hprev : findPreviousValidStepIndex steps (some d.values) d.stepIndex =
      (p.1 : Int) := by
    unfold findPreviousValidStepIndex
    rw [if_neg hidx0]
    apply findPrevFrom_eq_of
    · omega
    · exact hinv.evals p hpmem
    · intro j h1 h2
      apply hinv.gaps j (by omega)
      intro q hq
      have := hall_le q hq
      omega
  have hlookup_none : ∀ m, d.stepIndex ≤ m → m < steps.length →
      d.values (stepIdAt steps m) = none := by
    intro m hm hmlen
    rw [hinv.vals]
    apply applyHist_lookup_notin
    intro q hq
    apply stepIdAt_injOn steps hwf.nodup (hinv.inrange q hq) hmlen
    have := hall_le q hq
    omega
  have hvals1 : goBackVals1 steps d = d.values := by
    unfold goBackVals1
    cases hst : steps[d.stepIndex]? with
    | none => rfl
    | some st =>
      have hstid : st.step_id = stepIdAt steps d.stepIndex := by
        rw [stepIdAt_lt steps hinv.idx_lt]
        rw [List.getElem?_eq_getElem hinv.idx_lt] at hst
        injection hst with h2
        rw [← h2]
        rfl
      dsimp only
      rw [hstid, hlookup_none d.stepIndex (le_refl _) hinv.idx_lt]
      rfl
  have hpurge : purgeFrom steps d.values (d.stepIndex + 1) = d.values := by
    apply purgeFrom_noop
    intro j h1 h2
    rw [hlookup_none j (by omega) h2]
    rfl
  unfold goBack
  rw [if_neg hidx0, hprev]
  rw [if_neg (by omega : ¬ ((p.1 : ℕ) : Int) = -1)]
  rw [hvals1, hpurge, Int.toNat_natCast]
  rw [showChoiceModalNav_self steps d.values hplen (hinv.evals p hpmem)]
  refine ⟨rfl, ⟨hinv.vals, hinv.incr, hinv.inrange, hinv.truthy, rfl,
    hinv.evals, ?_⟩⟩
  intro j hj hnotin
  exact hinv.gaps j (by omega) hnotin

/-- A further `goBack` from an answered step deletes that step's value and
returns to the previous answered step. -/
theorem goBack_from_G (steps : List Step) (hwf : WFConfig steps)
    (h : List (ℕ × String)) (q p : ℕ × String) (d : DraftState)
    (hinv : GInv steps (h ++ [q]) p d) :
    goBack steps d = .stay ⟨applyHist steps (h ++ [q]), q.1⟩ ∧
    GInv steps h q ⟨applyHist steps (h ++ [q]), q.1⟩ := by
  have hqmem : q ∈ (h ++ [q]) ++ [p] :=
    List.mem_append_left _ (List.mem_append_right _ (List.mem_singleton_self _))
  have hpmem : p ∈ (h ++ [q]) ++ [p] :=
    List.mem_append_right _ (List.mem_singleton_self _)
  have hpw := hinv.incr
  rw [List.pairwise_append] at hpw
  have hall_lt_p : ∀ r ∈ h ++ [q], r.1 < p.1 := by
    intro r hr
    exact hpw.2.2 r hr p (List.mem_singleton_self _)
  have hall_le_q : ∀ r ∈ h ++ [q], r.1 ≤ q.1 := by
    have hpw1 := hpw.1
    rw [List.pairwise_append] at hpw1
    intro r hr
    rcases List.mem_append.mp hr with hr | hr
    · exact le_of_lt (hpw1.2.2 r hr q (List.mem_singleton_self _))
    · rw [List.mem_singleton] at hr
      subst hr
      exact le_refl _
  have hqp : q.1 < p.1 := hall_lt_p q (List.mem_append_right _ (List.mem_singleton_self _))
  have hplen : p.1 < steps.length := hinv.inrange p hpmem
  have hqlen : q.1 < steps.length := hinv.inrange q hqmem
  have hidx0 : ¬ d.stepIndex = 0 := by rw [hinv.idx]; omega
  have hprev : findPreviousValidStepIndex steps (some d.values) d.stepIndex =
      (q.1 : Int) := by
    unfold findPreviousValidStepIndex
    rw [if_neg hidx0, hinv.idx]
    apply findPrevFrom_eq_of
    · omega
    · exact hinv.evals q hqmem
    · intro j h1 h2
      apply hinv.gaps j (by omega)
      intro r hr
      rcases List.mem_append.mp hr with hr | hr
      · have := hall_le_q r hr
        omega
      · rw [List.mem_singleton] at hr
        subst hr
        omega
  have hcur : d.values (stepIdAt steps p.1) = some p.2 := by
    rw [hinv.vals]
    exact applyHist_lookup_last steps (h ++ [q]) p
  have hdel : delVal d.values (stepIdAt steps p.1) = applyHist steps (h ++ [q]) := by
    rw [hinv.vals]
    apply delVal_applyHist_concat
    intro r hr
    exact stepIdAt_injOn steps hwf.nodup (hinv.inrange r (List.mem_append_left _ hr))
      hplen (by have := hall_lt_p r hr; omega)
  have htru : isTruthy (some p.2) = true := by
    have := hinv.truthy p hpmem
    unfold isTruthy
    simpa using this
  have hvals1 : goBackVals1 steps d = delVal d.values (stepIdAt steps p.1) := by
    unfold goBackVals1
    rw [hinv.idx, List.getElem?_eq_getElem hplen]
    dsimp only
    have hstid : steps[p.1].step_id = stepIdAt steps p.1 := by
      rw [stepIdAt_lt steps hplen]
      rfl
    rw [hstid, hcur, if_pos htru]
  have hlookup_none : ∀ m, p.1 < m → m < steps.length →
      applyHist steps (h ++ [q]) (stepIdAt steps m) = none := by
    intro m hm hmlen
    apply applyHist_lookup_notin
    intro r hr
    exact stepIdAt_injOn steps hwf.nodup (hinv.inrange r (List.mem_append_left _ hr))
      hmlen (by have := hall_lt_p r hr; omega)
  have hpurge : purgeFrom steps (applyHist steps (h ++ [q])) (d.stepIndex + 1) =
      applyHist steps (h ++ [q]) := by
    apply purgeFrom_noop
    intro j h1 h2
    rw [hlookup_none j (by rw [hinv.idx] at h1; omega) h2]
    rfl
  have hstable : ∀ i, i ≤ p.1 →
      evalAt steps (some (applyHist steps (h ++ [q]))) i =
        evalAt steps (some d.values) i := by
    intro i hi
    rw [← hdel]
    exact evalAt_delVal_high steps hwf hi hplen d.values
  have heval_q : evalAt steps (some (applyHist steps (h ++ [q]))) q.1 = true := by
    rw [hstable q.1 (le_of_lt hqp)]
    exact hinv.evals q hqmem
  unfold goBack
  rw [if_neg hidx0, hprev]
  rw [if_neg (by omega : ¬ ((q.1 : ℕ) : Int) = -1)]
  rw [hvals1, hdel, hpurge, Int.toNat_natCast]
  rw [showChoiceModalNav_self steps _ hqlen heval_q]
  refine ⟨rfl, ⟨rfl, hpw.1, ?_, ?_, rfl, ?_, ?_⟩⟩
  · intro r hr
    exact hinv.inrange r (List.mem_append_left _ hr)
  · intro r hr
    exact hinv.truthy r (List.mem_append_left _ hr)
  · intro r hr
    rw [hstable r.1 (by have := hall_lt_p r hr; omega)]
    exact hinv.evals r (List.mem_append_left _ hr)
  · intro j hj hnotin
    rw [hstable j (by omega)]
    apply hinv.gaps j (by omega)
    intro r hr
    rcases List.mem_append.mp hr with hr | hr
    · exact hnotin r hr
    · rw [List.mem_singleton] at hr
      subst hr
      omega

/-- Chaining `goBack` while `GInv` holds: `n` further calls walk back
through the `n` remaining answered steps, ending at the earliest one with
only its value retained. -/
theorem goBackN_G (steps : List Step) (hwf : WFConfig steps) :
    ∀ (n : ℕ) (h : List (ℕ × String)) (p : ℕ × String) (d : DraftState),
      h.length = n → GInv steps h p d →
      goBackN steps n d =
        .stay ⟨applyHist steps [h.headD p], (h.headD p).1⟩ := by
  intro n
  induction n with
  | zero =>
    intro h p d hlen hinv
    rw [List.length_eq_zero] at hlen
    subst hlen
    obtain ⟨dv, di⟩ := d
    have h1 : dv = applyHist steps [p] := by simpa using hinv.vals
    have h2 : di = p.1 := hinv.idx
    subst h1
    subst h2
    rfl
  | succ n ih =>
    intro h p d hlen hinv
    rcases List.eq_nil_or_concat h with rfl | ⟨h1, q, rfl⟩
    · simp at hlen
    · rw [List.concat_eq_append] at hlen hinv ⊢
      obtain ⟨hgb, hinv2⟩ := goBack_from_G steps hwf h1 q p d hinv
      have hstep : goBackN steps (n + 1) d =
          goBackN steps n ⟨applyHist steps (h1 ++ [q]), q.1⟩ := by
        simp only [goBackN]
        rw [hgb]
      rw [hstep]
      have hlen2 : h1.length = n := by
        rw [List.length_append] at hlen
        simpa using hlen
      have hhead : (h1 ++ [q]).headD p = h1.headD q := by
        cases h1 <;> rfl
      rw [hhead]
      exact ih h1 q ⟨applyHist steps (h1 ++ [q]), q.1⟩ hlen2 hinv2

/-- A two-step unconditional config used to exercise back-navigation. -/
def cSteps : List Step := [⟨"A", none⟩, ⟨"B", none⟩]

/-- A fresh draft on the two-step config opens at step 0. -/
theorem cSteps_start :
    showChoiceModalNav cSteps ⟨emptyVals, 0⟩ = .open ⟨emptyVals, 0⟩ :=
  showChoiceModalNav_self cSteps emptyVals (by decide) rfl

/-- Answering step 0 of the two-step config with "x" moves to step 1. -/
theorem cSteps_answer : answer cSteps ⟨emptyVals, 0⟩ "x" =
    .open ⟨setVal emptyVals "A" "x", 1⟩ := by
  have h1 : findNextValidStepIndex cSteps (some (setVal emptyVals "A" "x")) 1 =
      (1 : Int) := findNextFrom_self cSteps _ (by decide) rfl
  show (if findNextValidStepIndex cSteps (some (setVal emptyVals "A" "x")) 1 = -1 ∨
      (cSteps.length : Int) ≤
        findNextValidStepIndex cSteps (some (setVal emptyVals "A" "x")) 1 then
    NavResult.finalized
  else
    showChoiceModalNav cSteps
      ⟨setVal emptyVals "A" "x",
       (findNextValidStepIndex cSteps (some (setVal emptyVals "A" "x")) 1).toNat⟩) =
    NavResult.open ⟨setVal emptyVals "A" "x", 1⟩
  rw [h1]
  have hc : ¬ ((1 : Int) = -1 ∨ (cSteps.length : Int) ≤ (1 : Int)) := by decide
  rw [if_neg hc]
  rw [show ((1 : Int).toNat) = 1 from rfl]
  exact showChoiceModalNav_self cSteps (setVal emptyVals "A" "x") (by decide) rfl

/-- One goBack() from step 1 of the two-step config lands back at step 0
with the recorded value for "A" untouched. -/
theorem cSteps_goBack : goBack cSteps ⟨setVal emptyVals "A" "x", 1⟩ =
    .stay ⟨setVal emptyVals "A" "x", 0⟩ := by
  have hprev : findPreviousValidStepIndex cSteps
      (some (setVal emptyVals "A" "x")) 1 = (0 : Int) := rfl
  have hpurge : purgeFrom cSteps (setVal emptyVals "A" "x") 2 =
      setVal emptyVals "A" "x" := by
    apply purgeFrom_noop
    intro j h1 h2
    rw [show cSteps.length = 2 from rfl] at h2
    omega
  show (if (1 : ℕ) = 0 then GBResult.stay ⟨setVal emptyVals "A" "x", 1⟩
  else if findPreviousValidStepIndex cSteps
      (some (setVal emptyVals "A" "x")) 1 = -1 then
    GBResult.closed
  else
    match showChoiceModalNav cSteps
        ⟨purgeFrom cSteps (goBackVals1 cSteps ⟨setVal emptyVals "A" "x", 1⟩) 2,
         (findPreviousValidStepIndex cSteps
           (some (setVal emptyVals "A" "x")) 1).toNat⟩ with
    | .open d1 => GBResult.stay d1
    | .finalized => GBResult.closed) =
    GBResult.stay ⟨setVal emptyVals "A" "x", 0⟩
  rw [hprev]
  rw [if_neg (by decide : ¬ (1 : ℕ) = 0)]
  rw [if_neg (by decide : ¬ (0 : Int) = -1)]
  rw [show goBackVals1 cSteps ⟨setVal emptyVals "A" "x", 1⟩ =
    setVal emptyVals "A" "x" from rfl]
  rw [hpurge]
  rw [show ((0 : Int).toNat) = 0 from rfl]
  rw [@showChoiceModalNav_self cSteps (setVal emptyVals "A" "x") 0 (by decide) rfl]

/-- C6 (counterexample): on a two-step config, answering the first step
with "x" and calling goBack() once returns the step index to 0, but the
draft's recorded value set does not return to its initial empty state —
the answer for step "A" is still recorded. -/
theorem goBack_round_trip_counterexample :
    showChoiceModalNav cSteps ⟨emptyVals, 0⟩ = .open ⟨emptyVals, 0⟩ ∧
    answer cSteps ⟨emptyVals, 0⟩ "x" = .open ⟨setVal emptyVals "A" "x", 1⟩ ∧
    goBackN cSteps 1 ⟨setVal emptyVals "A" "x", 1⟩ =
      .stay ⟨setVal emptyVals "A" "x", 0⟩ ∧
    (setVal emptyVals "A" "x") "A" = some "x" ∧
    emptyVals "A" = none := by
  refine ⟨cSteps_start, cSteps_answer, ?_, rfl, rfl⟩
  show (match goBack cSteps ⟨setVal emptyVals "A" "x", 1⟩ with
    | GBResult.stay d1 => goBackN cSteps 0 d1
    | GBResult.closed => GBResult.closed) =
    GBResult.stay ⟨setVal emptyVals "A" "x", 0⟩
  rw [cSteps_goBack]
  rfl

/-- C6 (amended): over a well-formed config (unique step ids, conditions
referencing strictly earlier steps), starting from a freshly opened draft
at the first qualifying step, after any nonempty sequence of nonempty
forward answers that keeps the draft open, an equal number of goBack()
calls returns the current step index to the first qualifying step — but
the recorded value set does NOT return to its initial empty state: it
retains exactly the first answered value. -/
theorem goBack_round_trip_amended (steps : List Step) (hwf : WFConfig steps)
    (d0 dN : DraftState) (v1 : String) (rest : List String)
    (hstart : showChoiceModalNav steps ⟨emptyVals, 0⟩ = .open d0)
    (htrace : ForwardTrace steps d0 (v1 :: rest) dN)
    (hvs : ∀ v ∈ v1 :: rest, v ≠ "") :
    goBackN steps (v1 :: rest).length dN =
      .stay ⟨setVal emptyVals (stepIdAt steps d0.stepIndex) v1, d0.stepIndex⟩ := by
  obtain ⟨hinv0, hvals0⟩ := start_FInv steps d0 hstart
  obtain ⟨ext, hinvN, hextlen, hexthead⟩ :=
    trace_FInv steps hwf (v1 :: rest) d0 dN [] htrace hinv0 hvs
  rcases List.eq_nil_or_concat ext with rfl | ⟨h, p, rfl⟩
  · simp at hextlen
  · rw [List.concat_eq_append] at hinvN hextlen hexthead
    rw [List.nil_append] at hinvN
    obtain ⟨hgb1, hginv⟩ := goBack_from_F steps hwf h p dN hinvN
    have hlen : (v1 :: rest).length = h.length + 1 := by
      rw [← hextlen]
      simp
    rw [hlen]
    have hstep : goBackN steps (h.length + 1) dN =
        goBackN steps h.length ⟨dN.values, p.1⟩ := by
      simp only [goBackN]
      rw [hgb1]
    rw [hstep]
    rw [goBackN_G steps hwf h.length h p ⟨dN.values, p.1⟩ rfl hginv]
    have hh2 : (h ++ [p]).head? = some (h.headD p) := by cases h <;> rfl
    have hexthead2 : some (h.headD p) = some ((d0.stepIndex, v1) : ℕ × String) := by
      rw [← hh2]
      exact hexthead
    injection hexthead2 with hhead
    rw [hhead]
    rfl

/-- C6 (witness for the amended theorem): on the two-step config, one
answer "x" followed by one goBack() lands at step index 0 with the value
of the first answered step still recorded. -/
theorem goBack_round_trip_amended_witness :
    goBackN cSteps 1 ⟨setVal emptyVals "A" "x", 1⟩ =
      .stay ⟨setVal emptyVals (stepIdAt cSteps 0) "x", 0⟩ := by
  have hwf : WFConfig cSteps := by
    refine ⟨by decide, ?_⟩
    intro i hi c hc
    have hi2 : i < 2 := hi
    interval_cases i
    · exact Option.noConfusion hc
    · exact Option.noConfusion hc
  have htr : ForwardTrace cSteps ⟨emptyVals, 0⟩ ["x"]
      ⟨setVal emptyVals "A" "x", 1⟩ :=
    ForwardTrace.cons cSteps_answer (ForwardTrace.nil _)
  exact goBack_round_trip_amended cSteps hwf ⟨emptyVals, 0⟩
    ⟨setVal emptyVals "A" "x", 1⟩ "x" [] cSteps_start htr
    (by intro v hv; rw [List.mem_singleton] at hv; subst hv; decide)

end CRClicker
